import Mathlib

/-!
Base58, Base58Check and CBase58Data (src/base58.cpp).

A shallow embedding of `src/base58.cpp`.

* A byte (`unsigned char`) is a `Fin 256`; a byte vector is a `List Byte`.
* A `const char*` argument is a `List Char`; the C string it denotes is the run of
  characters before the first NUL (`cstr`), the end of the list standing for the
  terminator.
* A function with a `bool` result and a by-reference output vector returns the pair
  `(result, final contents of the vector)`.
* `assert` is modelled as failure: a function that can reach an `assert` returns an
  `Option`, `none` standing for the aborted run.
-/

namespace Base58

/-- An `unsigned char`. -/
abbrev Byte := Fin 256

/-- The 32 bytes of a `uint256`, in memory order. -/
structure uint256 where
  bytes : List Byte
  size_eq : bytes.length = 32

/-- The alphabet `pszBase58` (base58.cpp:27). -/
def pszBase58 : List Char :=
  "123456789ABCDEFGHJKLMNPQRSTUVWXYZabcdefghijkmnopqrstuvwxyz".toList

/-- The terminator of a C string. -/
def NUL : Char := Char.ofNat 0

/-- The C string a `const char*` denotes: the characters before the first NUL. -/
def cstr (s : List Char) : List Char :=
  s.takeWhile (fun c => c != NUL)

/-- The function `isspace` of the C locale: space, `\t`, `\n`, `\v`, `\f`, `\r`. -/
def isspace (c : Char) : Bool :=
  c == ' ' || (9 ≤ c.toNat && c.toNat ≤ 13)

/-- The search part of `strchr`: index of the first occurrence of `c` in `s`. -/
def strchrAux : List Char → Char → Option Nat
  | [], _ => none
  | x :: xs, c => if x = c then some 0 else (strchrAux xs c).map (· + 1)

/-- The offset `strchr(s, c) - s`, or `none` for a NULL result. Searching for NUL finds the
terminator. -/
def strchr (s : List Char) (c : Char) : Option Nat :=
  if c = NUL then some s.length else strchrAux s c

/-- Little-endian base-256 digits of `n`, at most `fuel` of them. -/
def leBytes : Nat → Nat → List Byte
  | 0, _ => []
  | fuel + 1, n => if n = 0 then [] else Fin.ofNat (n % 256) :: leBytes fuel (n / 256)

/-- Modelled from the spec: `CBigNum::getvch` of `bignum.h`, which is not among the sources.
The spec speaks of "the big-endian byte representation of the accumulated number" carrying an
"extraneous high-order zero/sign byte from the big-integer representation"; the source
comments say the vector is little endian with a sign byte. For a non-negative `n` this is the
minimal little-endian byte string of `n` (empty for `0`), followed by a `0x00` sign byte when
the most significant byte is `0x80` or more. -/
def getvch (n : Nat) : List Byte :=
  let mag := leBytes n n
  match mag.getLast? with
  | none => []
  | some top => if 0x80 ≤ top.val then mag ++ [0] else mag

/-- The conversion loop of `DecodeBase58` (base58.cpp:45-60), run on the characters from `p`
on with the accumulator `bn`; `none` is the `return false`. -/
def DecodeBase58.loop : List Char → Nat → Option Nat
  | [], bn => some bn
  | c :: rest, bn =>
    match strchr pszBase58 c with
    | none => if (c :: rest).dropWhile isspace = [] then some bn else none
    | some d => DecodeBase58.loop rest (bn * 58 + d)

/-- The sign-byte trim of base58.cpp:66-67 on the little-endian vector. -/
def trimSign (vchTmp : List Byte) : List Byte :=
  match vchTmp.reverse with
  | last :: prev :: _ =>
    if last.val = 0 ∧ 0x80 ≤ prev.val then vchTmp.dropLast else vchTmp
  | _ => vchTmp

/-- The function `DecodeBase58(const char*, vector&)` up to its `return true`
(base58.cpp:29-77). -/
def DecodeBase58 (psz : List Char) : Bool × List Byte :=
  let vchRet : List Byte := []
  -- Skip leading spaces.
  let psz := (cstr psz).dropWhile isspace
  -- Skip and count leading '1's.
  let _zeroes := (psz.takeWhile (· == '1')).length
  let psz := psz.dropWhile (· == '1')
  match DecodeBase58.loop psz 0 with
  | none => (false, vchRet)
  | some bn =>
    let vchTmp := trimSign (getvch bn)
    -- Restore leading zeros: counted from `psz`, which has been advanced already.
    let nLeadingZeros := (psz.takeWhile (· == pszBase58.headD NUL)).length
    (true, List.replicate nLeadingZeros 0 ++ vchTmp.reverse)

/-- One pass "b58 = b58 * 256 + carry" over the big-endian buffer, from its last cell to
its first (base58.cpp:126-130); returns the buffer and the carry left. -/
def EncodeBase58.pass : List Nat → Nat → List Nat × Nat
  | [], carry => ([], carry)
  | d :: ds, carry =>
    let r := EncodeBase58.pass ds carry
    let carry := r.2 + 256 * d
    (carry % 58 :: r.1, carry / 58)

/-- The byte loop of `EncodeBase58` (base58.cpp:123-133); `none` is a failed `assert`. -/
def EncodeBase58.process : List Byte → List Nat → Option (List Nat)
  | [], b58 => some b58
  | x :: xs, b58 =>
    let r := EncodeBase58.pass b58 x.val
    if r.2 = 0 then EncodeBase58.process xs r.1 else none

/-- The function `EncodeBase58` (base58.cpp:113-145). -/
def EncodeBase58 (vch : List Byte) : Option (List Char) :=
  -- Skip & count leading zeroes.
  let zeroes := (vch.takeWhile (· == 0)).length
  let rest := vch.dropWhile (· == 0)
  let b58 := List.replicate (rest.length * 138 / 100 + 1) 0
  match EncodeBase58.process rest b58 with
  | none => none
  | some b58 =>
    let digits := b58.dropWhile (· == 0)
    some (List.replicate zeroes '1' ++ digits.map (fun d => pszBase58.getD d NUL))

/-- The function `EncodeBase58Check` (base58.cpp:155-161). -/
def EncodeBase58Check (Hash : List Byte → uint256) (vchIn : List Byte) : Option (List Char) :=
  let vch := vchIn
  let hash := Hash vch
  EncodeBase58 (vch ++ hash.bytes.take 4)

/-- The function `DecodeBase58Check` (base58.cpp:163-179). -/
def DecodeBase58Check (Hash : List Byte → uint256) (psz : List Char) : Bool × List Byte :=
  let r := DecodeBase58 psz
  let vchRet := r.2
  if !r.1 || vchRet.length < 4 then (false, [])
  else
    let hash := Hash (vchRet.take (vchRet.length - 4))
    if hash.bytes.take 4 ≠ vchRet.drop (vchRet.length - 4) then (false, [])
    else (true, vchRet.take (vchRet.length - 4))

/-- The fields of `CBase58Data`. -/
structure CBase58Data where
  vchVersion : List Byte
  vchData : List Byte
deriving DecidableEq, Repr

/-- The constructor `CBase58Data::CBase58Data` (base58.cpp:185-188). -/
def CBase58Data.new : CBase58Data := ⟨[], []⟩

/-- What a run of `SetString` leaves: the result, the object, the scratch vector. -/
structure SetStringResult where
  ret : Bool
  self : CBase58Data
  vchTemp : List Byte

/-- What the block guarded by the size test (base58.cpp:205-223) does: it falls through,
possibly with another `nVersionBytes`, or it returns. Its body needs `Params()` and
`CExtKeyPair`, which are not among the sources, so the block is a parameter. -/
inductive ExtKeyOutcome where
  | fallThrough (nVersionBytes : Nat)
  | returned (r : SetStringResult)

/-- The function `memory_cleanse(&v[0], n)`: the first `n` bytes of `v` become zero. -/
def memory_cleanse (v : List Byte) (n : Nat) : List Byte :=
  List.replicate (min n v.length) 0 ++ v.drop n

/-- The function `CBase58Data::SetString(const char*, unsigned int)` (base58.cpp:201-237).
`BIP32_KEY_N_BYTES` (of `extkey.h`) and the extended-key block are parameters. -/
def CBase58Data.SetString (Hash : List Byte → uint256) (BIP32_KEY_N_BYTES : Nat)
    (extKeyBlock : List Byte → Nat → CBase58Data → ExtKeyOutcome)
    (self : CBase58Data) (psz : List Char) (nVersionBytes : Nat) : SetStringResult :=
  let vchTemp : List Byte := []
  let o := if vchTemp.length = BIP32_KEY_N_BYTES + 4 then extKeyBlock vchTemp nVersionBytes self
    else ExtKeyOutcome.fallThrough nVersionBytes
  match o with
  | ExtKeyOutcome.returned r => r
  | ExtKeyOutcome.fallThrough nVersionBytes =>
    let r := DecodeBase58Check Hash psz
    let rc58 := r.1
    let vchTemp := r.2
    if !rc58 || vchTemp.length < nVersionBytes then
      ⟨false, ⟨[], []⟩, vchTemp⟩
    else
      let vchVersion := vchTemp.take nVersionBytes
      let vchData := vchTemp.drop nVersionBytes
      ⟨true, ⟨vchVersion, vchData⟩, memory_cleanse vchTemp vchData.length⟩

/-- The function `CBase58Data::ToString` (base58.cpp:243-247). -/
def CBase58Data.ToString (Hash : List Byte → uint256) (self : CBase58Data) :
    Option (List Char) :=
  let vch := self.vchVersion ++ self.vchData
  EncodeBase58Check Hash vch

/-- The shape `(whitespace)* (alphabet symbols)* (whitespace)*` of a string. -/
def Base58Shape (s : List Char) : Prop :=
  ∃ w1 a w2, s = w1 ++ a ++ w2 ∧ (∀ c ∈ w1, isspace c = true) ∧ (∀ c ∈ a, c ∈ pszBase58) ∧
    (∀ c ∈ w2, isspace c = true)

/-- The shape `(alphabet symbols)* (whitespace)*` of a string. -/
def Base58Tail (s : List Char) : Prop :=
  ∃ a w, s = a ++ w ∧ (∀ c ∈ a, c ∈ pszBase58) ∧ (∀ c ∈ w, isspace c = true)

/-- The digit an alphabet symbol stands for: its position in `pszBase58`. -/
def symbolValue (c : Char) : Nat :=
  (strchrAux pszBase58 c).getD 0

/-- The base-58 value of a run of alphabet symbols, most significant first, on top of an
initial value `bn`. -/
def base58ValueFrom (bn : Nat) (s : List Char) : Nat :=
  s.foldl (fun acc c => acc * 58 + symbolValue c) bn

/-- The base-58 value of a run of alphabet symbols, most significant first. -/
def base58Value (s : List Char) : Nat :=
  base58ValueFrom 0 s

/-- The value of a digit list in base `b`, most significant digit first. -/
def beValue (b : Nat) (ds : List Nat) : Nat :=
  ds.foldl (fun acc d => acc * b + d) 0

/-- The big-endian base-256 value of a byte sequence. -/
def base256Value (r : List Byte) : Nat :=
  beValue 256 (r.map Fin.val)

/-- The reference encoding the spec describes: `k` copies of the zero-symbol, then the
base-58 digits of the big-endian base-256 value of `r`, most significant first and without
a leading zero digit (none at all for the value 0), each rendered through the alphabet. -/
def referenceEncode (k : Nat) (r : List Byte) : List Char :=
  List.replicate k '1' ++
    (Nat.digits 58 (base256Value r)).reverse.map (fun d => pszBase58.getD d NUL)

/-- The minimal big-endian byte representation of `n`: no leading zero byte, empty for 0. -/
def minimalBytes (n : Nat) : List Byte :=
  (leBytes n n).reverse

/-- The comparison `operator<` of `std::vector<unsigned char>`: lexicographic, a proper
prefix being less. -/
def vecLt : List Byte → List Byte → Bool
  | _, [] => false
  | [], _ :: _ => true
  | x :: xs, y :: ys => if x < y then true else if y < x then false else vecLt xs ys

/-- The function `CBase58Data::CompareTo` (base58.cpp:249-255); `a > b` on vectors is
`b < a`. -/
def CBase58Data.CompareTo (self b58 : CBase58Data) : Int :=
  if vecLt self.vchVersion b58.vchVersion then -1
  else if vecLt b58.vchVersion self.vchVersion then 1
  else if vecLt self.vchData b58.vchData then -1
  else if vecLt b58.vchData self.vchData then 1
  else 0

/-- The values the variable `carry` takes during one pass of `EncodeBase58` over the buffer
(base58.cpp:126-130), in the order of the cells visited: for each cell the value after
`carry += 256 * (*it)` and the value after `carry /= 58`. -/
def EncodeBase58.passCarries : List Nat → Nat → List Nat
  | [], _ => []
  | d :: ds, carry =>
    let r := EncodeBase58.pass ds carry
    EncodeBase58.passCarries ds carry ++ [r.2 + 256 * d, (r.2 + 256 * d) / 58]

/-- One pass "b256 = b256 * 58 + carry" over the big-endian buffer, from its last cell to
its first (base58.cpp:88-92); returns the buffer and the carry left. -/
def DecodeBase58.carryPass : List Byte → Nat → List Byte × Nat
  | [], carry => ([], carry)
  | d :: ds, carry =>
    let r := DecodeBase58.carryPass ds carry
    let carry := r.2 + 58 * d.val
    (Fin.ofNat (carry % 256) :: r.1, carry / 256)

/-- The end of the carry-propagation path (base58.cpp:101-110): the cells of `b256` after
its leading zero cells, behind `zeroes` zero bytes. -/
def DecodeBase58.carryFinish (zeroes : Nat) (b256 : List Byte) : Bool × List Byte :=
  (true, List.replicate zeroes 0 ++ b256.dropWhile (· == 0))

/-- The character loop of the carry-propagation path and what follows it
(base58.cpp:81-110), run on the characters from `psz` on; `none` is a failed `assert`, and
a `return false` leaves the vector as `vchRet.clear()` made it. -/
def DecodeBase58.carryLoop (zeroes : Nat) : List Char → List Byte → Option (Bool × List Byte)
  | [], b256 => some (DecodeBase58.carryFinish zeroes b256)
  | c :: rest, b256 =>
    if isspace c then
      -- Skip trailing spaces.
      if (c :: rest).dropWhile isspace = [] then some (DecodeBase58.carryFinish zeroes b256)
      else some (false, [])
    else
      match strchr pszBase58 c with
      | none => some (false, [])
      | some ch =>
        let r := DecodeBase58.carryPass b256 ch
        if r.2 = 0 then DecodeBase58.carryLoop zeroes rest r.1 else none

/-- The number of leading `'1'`s `DecodeBase58` counts in `zeroes` (base58.cpp:39-43). -/
def DecodeBase58.zeroes (psz : List Char) : Nat :=
  (((cstr psz).dropWhile isspace).takeWhile (· == '1')).length

/-- The carry-propagation path of `DecodeBase58`, written after the `return true`
(base58.cpp:78-110), run from the point where the `return true` stands: the leading
whitespace and the leading `'1'`s have been skipped, the latter counted in `zeroes`. -/
def DecodeBase58.carryPath (psz : List Char) : Option (Bool × List Byte) :=
  let zeroes := DecodeBase58.zeroes psz
  let psz := ((cstr psz).dropWhile isspace).dropWhile (· == '1')
  let b256 : List Byte := List.replicate (psz.length * 733 / 1000 + 1) 0
  DecodeBase58.carryLoop zeroes psz b256

/-- The order the spec gives containers: lexicographic by `version`, then by `data`, each
compared as byte strings (a proper prefix first). -/
def CBase58Data.Less (a b : CBase58Data) : Prop :=
  List.Lex (· < ·) a.vchVersion b.vchVersion ∨
    (a.vchVersion = b.vchVersion ∧ List.Lex (· < ·) a.vchData b.vchData)

/-- A stand-in for the hash collaborator, used to instantiate theorems at concrete inputs:
every digest is 32 zero bytes. -/
def zeroHash : List Byte → uint256 :=
  fun _ => ⟨List.replicate 32 0, by simp⟩

/-- A stand-in for the extended-key block, used to instantiate theorems at concrete inputs:
it returns `true` at once and leaves the object as it is. -/
def returningBlock : List Byte → Nat → CBase58Data → ExtKeyOutcome :=
  fun v _ self => ExtKeyOutcome.returned ⟨true, self, v⟩

/-! ## DecodeBase58Check and SetString: control flow -/

theorem DecodeBase58_fst_false (psz : List Char) (h : (DecodeBase58 psz).1 = false) :
    DecodeBase58 psz = (false, []) := by
  unfold DecodeBase58 at h ⊢
  simp only at h ⊢
  split
  · rfl
  · rename_i bn hbn
    rw [hbn] at h
    simp at h

/-- C4: `DecodeBase58Check` succeeds with `r` exactly when `DecodeBase58` succeeds with some
`v` of at least 4 bytes whose last 4 bytes are the first 4 bytes of the hash of the rest, and
`r` is `v` without its last 4 bytes; on a decode failure, a decoded length below 4, or a
checksum mismatch it returns `false`, and whenever it returns `false` the output vector is
empty. -/
theorem DecodeBase58Check_success_iff (Hash : List Byte → uint256) (psz : List Char) :
    (∀ r, DecodeBase58Check Hash psz = (true, r) ↔
      ∃ v, DecodeBase58 psz = (true, v) ∧ 4 ≤ v.length ∧
        v.drop (v.length - 4) = (Hash (v.take (v.length - 4))).bytes.take 4 ∧
        r = v.take (v.length - 4)) ∧
    ((DecodeBase58 psz).1 = false → DecodeBase58Check Hash psz = (false, [])) ∧
    ((DecodeBase58 psz).2.length < 4 → DecodeBase58Check Hash psz = (false, [])) ∧
    ((DecodeBase58 psz).2.drop ((DecodeBase58 psz).2.length - 4) ≠
        (Hash ((DecodeBase58 psz).2.take ((DecodeBase58 psz).2.length - 4))).bytes.take 4 →
      DecodeBase58Check Hash psz = (false, [])) ∧
    ((DecodeBase58Check Hash psz).1 = false → (DecodeBase58Check Hash psz).2 = []) := by
  refine ⟨?_, ?_, ?_, ?_, ?_⟩
  · intro r
    unfold DecodeBase58Check
    rcases hd : DecodeBase58 psz with ⟨ok, v⟩
    simp only
    constructor
    · intro h
      split at h
      · simp at h
      · rename_i h1
        split at h
        · simp at h
        · rename_i h2
          simp only [Bool.or_eq_true, Bool.not_eq_true', decide_eq_true_eq, not_or,
            Bool.not_eq_false, not_lt] at h1
          simp only [ne_eq, Decidable.not_not] at h2
          simp only [Prod.mk.injEq, true_and] at h
          exact ⟨v, by rw [h1.1], h1.2, h2.symm, h.symm⟩
    · rintro ⟨v', hv', hlen, hck, hr⟩
      simp only [Prod.mk.injEq] at hv'
      obtain ⟨rfl, rfl⟩ := hv'
      have h1 : ¬ ((!true || decide (v.length < 4)) = true) := by
        simp only [Bool.not_true, Bool.false_or, decide_eq_true_eq, not_lt]
        exact hlen
      rw [if_neg h1, if_neg (by simp only [ne_eq, Decidable.not_not]; exact hck.symm), hr]
  · intro h
    unfold DecodeBase58Check
    simp [h]
  · intro h
    unfold DecodeBase58Check
    simp [h]
  · intro h
    unfold DecodeBase58Check
    simp only
    split
    · rfl
    · rw [if_pos (fun e => h e.symm)]
  · intro h
    unfold DecodeBase58Check at h ⊢
    simp only at h ⊢
    split
    · rfl
    · rename_i h1
      rw [if_neg h1] at h
      split
      · rfl
      · rename_i h2
        rw [if_neg h2] at h
        simp at h

theorem DecodeBase58Check_success_iff_witness :
    DecodeBase58Check zeroHash "1".toList = (false, []) :=
  (DecodeBase58Check_success_iff zeroHash "1".toList).2.2.1 (by decide)

/-- C5: `SetString(text, n)` returns `true` exactly when `DecodeBase58Check(text)` succeeds
with some `v` of length at least `n`; then the version is the first `n` bytes of `v` and the
data the rest of `v`, the version being empty exactly when `n = 0`. The result is the same
for every value of `BIP32_KEY_N_BYTES` and every behaviour of the extended-key block. -/
theorem SetString_success_iff (Hash : List Byte → uint256) (N : Nat)
    (blk : List Byte → Nat → CBase58Data → ExtKeyOutcome)
    (self : CBase58Data) (psz : List Char) (n : Nat) :
    ((CBase58Data.SetString Hash N blk self psz n).ret = true ↔
      ∃ v, DecodeBase58Check Hash psz = (true, v) ∧ n ≤ v.length) ∧
    (∀ v, DecodeBase58Check Hash psz = (true, v) → n ≤ v.length →
      (CBase58Data.SetString Hash N blk self psz n).ret = true ∧
      (CBase58Data.SetString Hash N blk self psz n).self.vchVersion = v.take n ∧
      (CBase58Data.SetString Hash N blk self psz n).self.vchData = v.drop n ∧
      ((CBase58Data.SetString Hash N blk self psz n).self.vchVersion = [] ↔ n = 0)) ∧
    (∀ (N2 : Nat) (blk2 : List Byte → Nat → CBase58Data → ExtKeyOutcome),
      CBase58Data.SetString Hash N blk self psz n =
        CBase58Data.SetString Hash N2 blk2 self psz n) := by
  have hN : ∀ M : Nat, ¬ (([] : List Byte).length = M + 4) := by
    intro M; simp
  have hrun : ∀ (M : Nat) (b : List Byte → Nat → CBase58Data → ExtKeyOutcome),
      CBase58Data.SetString Hash M b self psz n =
        (if (!(DecodeBase58Check Hash psz).1 || decide ((DecodeBase58Check Hash psz).2.length < n))
            = true then
          (⟨false, ⟨[], []⟩, (DecodeBase58Check Hash psz).2⟩ : SetStringResult)
        else ⟨true, ⟨(DecodeBase58Check Hash psz).2.take n, (DecodeBase58Check Hash psz).2.drop n⟩,
          memory_cleanse (DecodeBase58Check Hash psz).2
            ((DecodeBase58Check Hash psz).2.drop n).length⟩) := by
    intro M b
    unfold CBase58Data.SetString
    simp only [if_neg (hN M)]
  refine ⟨?_, ?_, ?_⟩
  · rw [hrun]
    rcases hd : DecodeBase58Check Hash psz with ⟨ok, v⟩
    cases ok
    · simp
    · by_cases hlt : v.length < n
      · simp [hlt]
      · simp [hlt]
        omega
  · intro v hv hn
    rw [hrun, hv]
    have : ¬ (v.length < n) := by omega
    simp only [Bool.not_true, Bool.false_or, decide_eq_true_eq, this, if_false, true_and]
    constructor
    · intro h
      have := congrArg List.length h
      simp only [List.length_take, List.length_nil] at this
      omega
    · rintro rfl
      rfl
  · intro N2 blk2
    rw [hrun, hrun]

theorem SetString_success_iff_witness :
    (CBase58Data.SetString zeroHash 74 returningBlock ⟨[7], [8]⟩ "7YXq9H".toList 1).ret = true ∧
    (CBase58Data.SetString zeroHash 74 returningBlock ⟨[7], [8]⟩ "7YXq9H".toList 1).self.vchVersion
      = List.take 1 [1] ∧
    (CBase58Data.SetString zeroHash 74 returningBlock ⟨[7], [8]⟩ "7YXq9H".toList 1).self.vchData
      = List.drop 1 [1] ∧
    ((CBase58Data.SetString zeroHash 74 returningBlock ⟨[7], [8]⟩ "7YXq9H".toList 1).self.vchVersion
      = [] ↔ 1 = 0) :=
  (SetString_success_iff zeroHash 74 returningBlock ⟨[7], [8]⟩ "7YXq9H".toList 1).2.1 [1]
    (by decide) (by decide)

/-- C6: whatever the object held before, if `SetString(text, n)` returns `false` then the
version and the data are both empty afterwards: the object equals a freshly constructed
one. -/
theorem SetString_failure_empty (Hash : List Byte → uint256) (N : Nat)
    (blk : List Byte → Nat → CBase58Data → ExtKeyOutcome)
    (self : CBase58Data) (psz : List Char) (n : Nat)
    (h : (CBase58Data.SetString Hash N blk self psz n).ret = false) :
    (CBase58Data.SetString Hash N blk self psz n).self = CBase58Data.new ∧
    (CBase58Data.SetString Hash N blk self psz n).self.vchVersion = [] ∧
    (CBase58Data.SetString Hash N blk self psz n).self.vchData = [] := by
  have hN : ¬ (([] : List Byte).length = N + 4) := by simp
  unfold CBase58Data.SetString at h ⊢
  simp only [if_neg hN] at h ⊢
  split
  · exact ⟨rfl, rfl, rfl⟩
  · rename_i h1
    rw [if_neg h1] at h
    simp at h

theorem SetString_failure_empty_witness :
    (CBase58Data.SetString zeroHash 74 returningBlock ⟨[7], [8, 9]⟩ "7YXq9J".toList 1).ret = false ∧
    (CBase58Data.SetString zeroHash 74 returningBlock ⟨[7], [8, 9]⟩ "7YXq9J".toList 1).self
      = CBase58Data.new :=
  ⟨by decide,
    (SetString_failure_empty zeroHash 74 returningBlock ⟨[7], [8, 9]⟩ "7YXq9J".toList 1
      (by decide)).1⟩

/-! ## DecodeBase58: which strings are accepted -/

theorem strchrAux_eq_none_iff (s : List Char) (c : Char) : strchrAux s c = none ↔ c ∉ s := by
  induction s with
  | nil => simp [strchrAux]
  | cons x xs ih =>
    by_cases hx : x = c
    · simp [strchrAux, hx]
    · have hx2 : ¬ c = x := fun e => hx e.symm
      simp [strchrAux, hx, hx2, ih]

theorem isspace_false_of_mem : ∀ c ∈ pszBase58, isspace c = false := by decide

theorem ne_NUL_of_mem : ∀ c ∈ pszBase58, c ≠ NUL := by decide

theorem isspace_NUL : isspace NUL = false := by decide

theorem isspace_one : isspace '1' = false := by decide

theorem excluded_symbols :
    ∀ c ∈ ['0', 'I', 'O', 'l'], isspace c = false ∧ c ∉ pszBase58 := by decide

theorem headD_pszBase58 : pszBase58.headD NUL = '1' := by decide

theorem one_mem : '1' ∈ pszBase58 := by decide

theorem not_mem_of_isspace {c : Char} (h : isspace c = true) : c ∉ pszBase58 := by
  intro hm
  rw [isspace_false_of_mem c hm] at h
  exact Bool.false_ne_true h

theorem ne_NUL_of_isspace {c : Char} (h : isspace c = true) : c ≠ NUL := by
  intro e
  rw [e, isspace_NUL] at h
  exact Bool.false_ne_true h

theorem strchr_of_mem {c : Char} (h : c ∈ pszBase58) :
    strchr pszBase58 c = some (symbolValue c) := by
  unfold strchr symbolValue
  rw [if_neg (ne_NUL_of_mem c h)]
  cases hs : strchrAux pszBase58 c with
  | none => exact absurd h ((strchrAux_eq_none_iff _ _).1 hs)
  | some d => rfl

theorem strchr_of_isspace {c : Char} (h : isspace c = true) : strchr pszBase58 c = none := by
  unfold strchr
  rw [if_neg (ne_NUL_of_isspace h)]
  exact (strchrAux_eq_none_iff _ _).2 (not_mem_of_isspace h)

theorem mem_of_strchr_some {c : Char} {d : Nat} (hc : c ≠ NUL)
    (h : strchr pszBase58 c = some d) : c ∈ pszBase58 := by
  unfold strchr at h
  rw [if_neg hc] at h
  by_contra hm
  rw [(strchrAux_eq_none_iff _ _).2 hm] at h
  exact Option.noConfusion h

theorem loop_append (a w : List Char) (ha : ∀ c ∈ a, c ∈ pszBase58)
    (hw : ∀ c ∈ w, isspace c = true) (bn : Nat) :
    DecodeBase58.loop (a ++ w) bn = some (base58ValueFrom bn a) := by
  induction a generalizing bn with
  | nil =>
    cases w with
    | nil => rfl
    | cons c w =>
      simp only [List.nil_append, DecodeBase58.loop]
      rw [strchr_of_isspace (hw c (List.mem_cons_self _ _))]
      simp only
      rw [if_pos (List.dropWhile_eq_nil_iff.2 hw)]
      rfl
  | cons c a ih =>
    simp only [List.cons_append, DecodeBase58.loop]
    rw [strchr_of_mem (ha c (List.mem_cons_self _ _))]
    simp only
    exact ih (fun x hx => ha x (List.mem_cons_of_mem _ hx)) _

theorem tail_of_loop_some (p : List Char) (hn : NUL ∉ p) (bn r : Nat)
    (h : DecodeBase58.loop p bn = some r) : Base58Tail p := by
  induction p generalizing bn with
  | nil => exact ⟨[], [], rfl, by simp, by simp⟩
  | cons c rest ih =>
    have hc : c ≠ NUL := fun e => hn (e ▸ List.mem_cons_self _ _)
    have hrest : NUL ∉ rest := fun hm => hn (List.mem_cons_of_mem _ hm)
    simp only [DecodeBase58.loop] at h
    cases hs : strchr pszBase58 c with
    | none =>
      rw [hs] at h
      simp only at h
      by_cases hd : (c :: rest).dropWhile isspace = []
      · exact ⟨[], c :: rest, rfl, by simp, List.dropWhile_eq_nil_iff.1 hd⟩
      · rw [if_neg hd] at h
        exact Option.noConfusion h
    | some d =>
      rw [hs] at h
      simp only at h
      obtain ⟨a, w, e, ha, hw⟩ := ih hrest _ h
      refine ⟨c :: a, w, by rw [e]; rfl, ?_, hw⟩
      intro x hx
      rcases List.mem_cons.1 hx with rfl | hx
      · exact mem_of_strchr_some hc hs
      · exact ha x hx

theorem tail_of_cons {x : Char} {q : List Char} (h : Base58Tail (x :: q)) : Base58Tail q := by
  obtain ⟨a, w, e, ha, hw⟩ := h
  cases a with
  | nil =>
    simp only [List.nil_append] at e
    subst e
    exact ⟨[], q, rfl, by simp, fun c hc => hw c (List.mem_cons_of_mem _ hc)⟩
  | cons y a =>
    simp only [List.cons_append, List.cons.injEq] at e
    exact ⟨a, w, e.2, fun c hc => ha c (List.mem_cons_of_mem _ hc), hw⟩

theorem tail_dropWhile (p : Char → Bool) (q : List Char) (h : Base58Tail q) :
    Base58Tail (q.dropWhile p) := by
  induction q with
  | nil => exact h
  | cons x q ih =>
    rw [List.dropWhile_cons]
    split
    · exact ih (tail_of_cons h)
    · exact h

theorem tail_of_dropWhile_one (q : List Char) (h : Base58Tail (q.dropWhile (· == '1'))) :
    Base58Tail q := by
  obtain ⟨a, w, e, ha, hw⟩ := h
  refine ⟨q.takeWhile (· == '1') ++ a, w, ?_, ?_, hw⟩
  · rw [List.append_assoc, ← e, List.takeWhile_append_dropWhile]
  · intro c hc
    rcases List.mem_append.1 hc with hc | hc
    · have := List.mem_takeWhile_imp hc
      simp only [beq_iff_eq] at this
      rw [this]
      exact one_mem
    · exact ha c hc

theorem shape_iff_tail (s : List Char) : Base58Shape s ↔ Base58Tail (s.dropWhile isspace) := by
  constructor
  · rintro ⟨w1, a, w2, e, h1, ha, h2⟩
    rw [e, List.append_assoc, List.dropWhile_append_of_pos h1]
    exact tail_dropWhile _ _ ⟨a, w2, rfl, ha, h2⟩
  · rintro ⟨a, w, e, ha, hw⟩
    refine ⟨s.takeWhile isspace, a, w, ?_, fun c hc => List.mem_takeWhile_imp hc, ha, hw⟩
    rw [List.append_assoc, ← e, List.takeWhile_append_dropWhile]

theorem NUL_not_mem_cstr (s : List Char) : NUL ∉ cstr s := by
  intro h
  have := List.mem_takeWhile_imp h
  simp at this

theorem cstr_eq_self {s : List Char} (h : NUL ∉ s) : cstr s = s := by
  unfold cstr
  rw [List.takeWhile_eq_self_iff]
  intro x hx
  simp only [bne_iff_ne, ne_eq]
  intro e
  exact h (e ▸ hx)

theorem takeWhile_dropWhile_nil {α : Type} (p : α → Bool) (l : List α) :
    (l.dropWhile p).takeWhile p = [] := by
  induction l with
  | nil => rfl
  | cons x l ih =>
    rw [List.dropWhile_cons]
    split
    · exact ih
    · rename_i h
      rw [List.takeWhile_cons, if_neg h]

/-- The result of `DecodeBase58` in terms of its conversion loop: no zero byte is ever put
in front, since the count of leading `'1'`s is taken after they were skipped. -/
theorem DecodeBase58_eq (psz : List Char) :
    DecodeBase58 psz =
      match DecodeBase58.loop (((cstr psz).dropWhile isspace).dropWhile (· == '1')) 0 with
      | none => (false, [])
      | some bn => (true, (trimSign (getvch bn)).reverse) := by
  unfold DecodeBase58
  simp only [headD_pszBase58, takeWhile_dropWhile_nil, List.length_nil, List.replicate_zero,
    List.nil_append]

theorem DecodeBase58_fst_iff (psz : List Char) :
    (DecodeBase58 psz).1 = true ↔ Base58Shape (cstr psz) := by
  rw [DecodeBase58_eq, shape_iff_tail]
  constructor
  · intro h
    cases hl : DecodeBase58.loop (((cstr psz).dropWhile isspace).dropWhile (· == '1')) 0 with
    | none => rw [hl] at h; simp at h
    | some bn =>
      apply tail_of_dropWhile_one
      refine tail_of_loop_some _ ?_ 0 bn hl
      intro hm
      exact NUL_not_mem_cstr psz
        ((List.dropWhile_sublist _).subset ((List.dropWhile_sublist _).subset hm))
  · intro h
    obtain ⟨a, w, e, ha, hw⟩ := tail_dropWhile (· == '1') _ h
    rw [e, loop_append a w ha hw]

theorem dropWhile_append_of_exists {α : Type} (p : α → Bool) (l r : List α)
    (h : ∃ x ∈ l, p x = false) : (l ++ r).dropWhile p = l.dropWhile p ++ r := by
  induction l with
  | nil => simp at h
  | cons y l ih =>
    rw [List.cons_append, List.dropWhile_cons, List.dropWhile_cons]
    by_cases hy : p y = true
    · rw [if_pos hy, if_pos hy]
      apply ih
      obtain ⟨x, hx, hpx⟩ := h
      rcases List.mem_cons.1 hx with rfl | hx
      · rw [hy] at hpx; exact absurd hpx (by simp)
      · exact ⟨x, hx, hpx⟩
    · rw [if_neg hy, if_neg hy]
      rfl

theorem tail_after_space (l : List Char) (c : Char) (r : List Char)
    (h : Base58Tail (l ++ c :: r)) (hc : isspace c = true) : ∀ y ∈ r, isspace y = true := by
  induction l with
  | nil =>
    obtain ⟨a, w, e, ha, hw⟩ := h
    cases a with
    | nil =>
      simp only [List.nil_append] at e
      intro y hy
      apply hw
      rw [← e]
      exact List.mem_cons_of_mem _ hy
    | cons x a =>
      simp only [List.nil_append, List.cons_append, List.cons.injEq] at e
      exact absurd (ha x (List.mem_cons_self _ _)) (e.1 ▸ not_mem_of_isspace hc)
  | cons x l ih => exact ih (tail_of_cons h)

theorem shape_after_space (l : List Char) (c : Char) (r : List Char)
    (h : Base58Shape (l ++ c :: r)) (hc : isspace c = true) (hl : ∃ x ∈ l, isspace x = false) :
    ∀ y ∈ r, isspace y = true := by
  rw [shape_iff_tail, dropWhile_append_of_exists isspace l _ hl] at h
  exact tail_after_space _ c r h hc

/-- C9: `DecodeBase58` returns `true` exactly when the C string it is given has the shape
(whitespace)* (alphabet symbols)* (whitespace)*, and when it returns `false` the output
vector is empty. So a string with `'0'`, `'I'`, `'O'` or `'l'` anywhere, or with whitespace
between two alphabet symbols, is rejected. -/
theorem DecodeBase58_accepts_iff (psz : List Char) :
    ((DecodeBase58 psz).1 = true ↔ Base58Shape (cstr psz)) ∧
    (NUL ∉ psz → ((DecodeBase58 psz).1 = true ↔ Base58Shape psz)) ∧
    ((DecodeBase58 psz).1 = false → DecodeBase58 psz = (false, [])) ∧
    (∀ c ∈ cstr psz, c ∈ ['0', 'I', 'O', 'l'] → DecodeBase58 psz = (false, [])) ∧
    (∀ p1 a1 p2 w p3 a2 p4, cstr psz = p1 ++ a1 :: p2 ++ w :: p3 ++ a2 :: p4 →
      a1 ∈ pszBase58 → isspace w = true → a2 ∈ pszBase58 → DecodeBase58 psz = (false, [])) := by
  have hrej : ¬ Base58Shape (cstr psz) → DecodeBase58 psz = (false, []) := by
    intro hs
    apply DecodeBase58_fst_false
    cases hb : (DecodeBase58 psz).1 with
    | false => rfl
    | true => exact absurd ((DecodeBase58_fst_iff psz).1 hb) hs
  refine ⟨DecodeBase58_fst_iff psz, ?_, DecodeBase58_fst_false psz, ?_, ?_⟩
  · intro hn
    rw [DecodeBase58_fst_iff, cstr_eq_self hn]
  · intro c hc hbad
    apply hrej
    rintro ⟨w1, a, w2, e, h1, ha, h2⟩
    rw [e] at hc
    have hns : isspace c = false := (excluded_symbols c hbad).1
    have hna : c ∉ pszBase58 := (excluded_symbols c hbad).2
    rcases List.mem_append.1 hc with hc | hc
    · rcases List.mem_append.1 hc with hc | hc
      · rw [h1 c hc] at hns
        exact Bool.noConfusion hns
      · exact hna (ha c hc)
    · rw [h2 c hc] at hns
      exact Bool.noConfusion hns
  · intro p1 a1 p2 w p3 a2 p4 e h1 hw h2
    apply hrej
    intro hs
    rw [e] at hs
    have hs2 : Base58Shape ((p1 ++ a1 :: p2) ++ w :: (p3 ++ a2 :: p4)) := by
      simpa [List.append_assoc] using hs
    have := shape_after_space _ w _ hs2 hw
      ⟨a1, by simp, isspace_false_of_mem a1 h1⟩ a2 (by simp)
    rw [isspace_false_of_mem a2 h2] at this
    exact Bool.noConfusion this

theorem DecodeBase58_accepts_iff_witness :
    DecodeBase58 "2O".toList = (false, []) ∧ DecodeBase58 "2 3".toList = (false, []) ∧
      ((DecodeBase58 " 23 ".toList).1 = true ↔ Base58Shape " 23 ".toList) :=
  ⟨(DecodeBase58_accepts_iff "2O".toList).2.2.2.1 'O' (by decide) (by decide),
    (DecodeBase58_accepts_iff "2 3".toList).2.2.2.2 [] '2' [] ' ' [] '3' [] (by decide)
      (by decide) (by decide) (by decide),
    (DecodeBase58_accepts_iff " 23 ".toList).2.1 (by decide)⟩

/-! ## DecodeBase58: the value of an accepted string -/

theorem dropWhile_append_of_forall_false {α : Type} (p : α → Bool) (s w : List α)
    (h : ∀ c ∈ w, p c = false) : (s ++ w).dropWhile p = s.dropWhile p ++ w := by
  induction s with
  | nil =>
    cases w with
    | nil => rfl
    | cons c w =>
      have hc : ¬ p c = true := by rw [h c (List.mem_cons_self _ _)]; exact Bool.false_ne_true
      rw [List.nil_append, List.dropWhile_cons, if_neg hc]
      rfl
  | cons x s ih =>
    rw [List.cons_append, List.dropWhile_cons, List.dropWhile_cons]
    split
    · exact ih
    · rfl

theorem dropWhile_eq_self_of_forall_false {α : Type} (p : α → Bool) (s : List α)
    (h : ∀ c ∈ s, p c = false) : s.dropWhile p = s := by
  have := dropWhile_append_of_forall_false p [] s h
  simpa using this

theorem forall_mem_dropWhile {α : Type} (p : α → Bool) (P : α → Prop) (s : List α)
    (h : ∀ c ∈ s, P c) : ∀ c ∈ s.dropWhile p, P c :=
  fun c hc => h c ((List.dropWhile_sublist p).subset hc)

theorem eq_one_false_of_isspace {c : Char} (h : isspace c = true) : (c == '1') = false := by
  cases hb : c == '1' with
  | false => rfl
  | true =>
    rw [beq_iff_eq] at hb
    rw [hb, isspace_one] at h
    exact Bool.noConfusion h

theorem NUL_not_mem_shape (w1 s w2 : List Char) (hs : ∀ c ∈ s, c ∈ pszBase58)
    (h1 : ∀ c ∈ w1, isspace c = true) (h2 : ∀ c ∈ w2, isspace c = true) :
    NUL ∉ w1 ++ s ++ w2 := by
  intro hm
  rcases List.mem_append.1 hm with hm | hm
  · rcases List.mem_append.1 hm with hm | hm
    · exact ne_NUL_of_isspace (h1 _ hm) rfl
    · exact ne_NUL_of_mem _ (hs _ hm) rfl
  · exact ne_NUL_of_isspace (h2 _ hm) rfl

/-- The two skipping loops of `DecodeBase58` on a string of the accepted shape leave the
alphabet symbols after the leading `'1'`s, followed by whitespace. -/
theorem skip_shape (w1 s w2 : List Char) (hs : ∀ c ∈ s, c ∈ pszBase58)
    (h1 : ∀ c ∈ w1, isspace c = true) (h2 : ∀ c ∈ w2, isspace c = true) :
    ∃ w, (∀ c ∈ w, isspace c = true) ∧
      ((cstr (w1 ++ s ++ w2)).dropWhile isspace).dropWhile (· == '1') =
        s.dropWhile (· == '1') ++ w := by
  rw [cstr_eq_self (NUL_not_mem_shape w1 s w2 hs h1 h2), List.append_assoc,
    List.dropWhile_append_of_pos h1]
  cases s with
  | nil =>
    refine ⟨[], by simp, ?_⟩
    rw [List.nil_append, List.dropWhile_eq_nil_iff.2 h2]
    rfl
  | cons c s =>
    refine ⟨w2, h2, ?_⟩
    have hc : ¬ isspace c = true := by
      rw [isspace_false_of_mem c (hs c (List.mem_cons_self _ _))]
      exact Bool.false_ne_true
    rw [List.cons_append, List.dropWhile_cons, if_neg hc, ← List.cons_append]
    exact dropWhile_append_of_forall_false _ _ _ (fun x hx => eq_one_false_of_isspace (h2 x hx))

theorem DecodeBase58_shape (w1 s w2 : List Char) (hs : ∀ c ∈ s, c ∈ pszBase58)
    (h1 : ∀ c ∈ w1, isspace c = true) (h2 : ∀ c ∈ w2, isspace c = true) :
    DecodeBase58 (w1 ++ s ++ w2) =
      (true, (trimSign (getvch (base58Value (s.dropWhile (· == '1'))))).reverse) := by
  obtain ⟨w, hw, e⟩ := skip_shape w1 s w2 hs h1 h2
  rw [DecodeBase58_eq, e, loop_append _ w (forall_mem_dropWhile _ _ s hs) hw]
  rfl

/-- C10: leading and trailing whitespace is skipped: for a run `s` of alphabet symbols and
whitespace runs `w1`, `w2`, `DecodeBase58(w1 ++ s ++ w2)` returns `true` and the same bytes
as `DecodeBase58(s)`. -/
theorem DecodeBase58_whitespace (w1 s w2 : List Char) (hs : ∀ c ∈ s, c ∈ pszBase58)
    (h1 : ∀ c ∈ w1, isspace c = true) (h2 : ∀ c ∈ w2, isspace c = true) :
    (DecodeBase58 (w1 ++ s ++ w2)).1 = true ∧ (DecodeBase58 s).1 = true ∧
      (DecodeBase58 (w1 ++ s ++ w2)).2 = (DecodeBase58 s).2 := by
  have e1 := DecodeBase58_shape w1 s w2 hs h1 h2
  have e2 := DecodeBase58_shape [] s [] hs (by simp) (by simp)
  simp only [List.nil_append, List.append_nil] at e2
  rw [e1, e2]
  exact ⟨rfl, rfl, rfl⟩

theorem DecodeBase58_whitespace_witness :
    (DecodeBase58 (" \t".toList ++ "1Ldp".toList ++ "\n ".toList)).1 = true ∧
      (DecodeBase58 "1Ldp".toList).1 = true ∧
      (DecodeBase58 (" \t".toList ++ "1Ldp".toList ++ "\n ".toList)).2 =
        (DecodeBase58 "1Ldp".toList).2 :=
  DecodeBase58_whitespace " \t".toList "1Ldp".toList "\n ".toList (by decide) (by decide)
    (by decide)

/-! ## EncodeBase58: the carry-propagation loop computes the base-58 digits -/

theorem foldl_beValue (b : Nat) (ds : List Nat) (a : Nat) :
    ds.foldl (fun acc d => acc * b + d) a = a * b ^ ds.length + beValue b ds := by
  induction ds generalizing a with
  | nil => simp [beValue]
  | cons d ds ih =>
    simp only [List.foldl_cons, List.length_cons, beValue]
    rw [ih (a * b + d), ih (0 * b + d)]
    ring

theorem beValue_cons (b d : Nat) (ds : List Nat) :
    beValue b (d :: ds) = d * b ^ ds.length + beValue b ds := by
  show (d :: ds).foldl (fun acc d => acc * b + d) 0 = _
  rw [List.foldl_cons, foldl_beValue]
  simp

theorem beValue_nil (b : Nat) : beValue b [] = 0 := rfl

theorem beValue_eq_ofDigits (b : Nat) (ds : List Nat) :
    beValue b ds = Nat.ofDigits b ds.reverse := by
  induction ds with
  | nil => simp [beValue]
  | cons d ds ih =>
    rw [beValue_cons, List.reverse_cons, Nat.ofDigits_append, Nat.ofDigits_singleton, ← ih,
      List.length_reverse]
    ring

theorem beValue_replicate_zero (b n : Nat) : beValue b (List.replicate n 0) = 0 := by
  induction n with
  | zero => rfl
  | succ n ih => rw [List.replicate_succ, beValue_cons, ih]; simp

theorem base256Value_cons (x : Byte) (xs : List Byte) :
    base256Value (x :: xs) = x.val * 256 ^ xs.length + base256Value xs := by
  unfold base256Value
  rw [List.map_cons, beValue_cons, List.length_map]

theorem pass_spec (ds : List Nat) (c : Nat) :
    (EncodeBase58.pass ds c).1.length = ds.length ∧
    (∀ d ∈ (EncodeBase58.pass ds c).1, d < 58) ∧
    beValue 58 (EncodeBase58.pass ds c).1 + (EncodeBase58.pass ds c).2 * 58 ^ ds.length =
      256 * beValue 58 ds + c := by
  induction ds with
  | nil => simp [EncodeBase58.pass, beValue]
  | cons d ds ih =>
    obtain ⟨hl, hd, hv⟩ := ih
    simp only [EncodeBase58.pass]
    refine ⟨by simp [hl], ?_, ?_⟩
    · intro x hx
      rcases List.mem_cons.1 hx with rfl | hx
      · exact Nat.mod_lt _ (by norm_num)
      · exact hd x hx
    · rw [beValue_cons, beValue_cons, hl, List.length_cons, pow_succ]
      generalize (EncodeBase58.pass ds c).2 = c1 at hv ⊢
      generalize beValue 58 (EncodeBase58.pass ds c).1 = v1 at hv ⊢
      generalize 58 ^ ds.length = P at hv ⊢
      have key : (c1 + 256 * d) % 58 * P + (c1 + 256 * d) / 58 * (P * 58) =
          (c1 + 256 * d) * P := by
        conv_rhs => rw [← Nat.div_add_mod (c1 + 256 * d) 58]
        ring
      nlinarith [key, hv]

theorem process_spec (xs : List Byte) (b58 : List Nat) (hd : ∀ d ∈ b58, d < 58)
    (hfit : (beValue 58 b58 + 1) * 256 ^ xs.length ≤ 58 ^ b58.length) :
    ∃ out, EncodeBase58.process xs b58 = some out ∧ out.length = b58.length ∧
      (∀ d ∈ out, d < 58) ∧
      beValue 58 out = beValue 58 b58 * 256 ^ xs.length + base256Value xs := by
  induction xs generalizing b58 with
  | nil => exact ⟨b58, rfl, rfl, hd, by simp [base256Value, beValue_nil]⟩
  | cons x xs ih =>
    obtain ⟨hl, hd1, hv⟩ := pass_spec b58 x.val
    have hx : x.val < 256 := x.isLt
    have hQ : 1 ≤ 256 ^ xs.length := Nat.one_le_pow _ _ (by norm_num)
    rw [List.length_cons, pow_succ] at hfit
    generalize hV : beValue 58 b58 = V at hv hfit
    generalize hQe : 256 ^ xs.length = Q at hQ hfit
    generalize hPe : 58 ^ b58.length = P at hv hfit
    have hfit2 : (256 * V + x.val + 1) * Q ≤ P := by
      have : (256 * V + x.val + 1) * Q ≤ (V + 1) * (Q * 256) := by
        have e : (V + 1) * (Q * 256) = (256 * V + 256) * Q := by ring
        rw [e]
        exact Nat.mul_le_mul_right _ (by omega)
      exact le_trans this hfit
    have hlt : 256 * V + x.val < P := by
      have : (256 * V + x.val + 1) * 1 ≤ (256 * V + x.val + 1) * Q :=
        Nat.mul_le_mul_left _ hQ
      omega
    have hc0 : (EncodeBase58.pass b58 x.val).2 = 0 := by
      by_contra hne
      have h1 : 1 ≤ (EncodeBase58.pass b58 x.val).2 := Nat.one_le_iff_ne_zero.2 hne
      have h2 : 1 * P ≤ (EncodeBase58.pass b58 x.val).2 * P := Nat.mul_le_mul_right _ h1
      omega
    rw [hc0, Nat.zero_mul, Nat.add_zero] at hv
    have hfit3 : (beValue 58 (EncodeBase58.pass b58 x.val).1 + 1) * 256 ^ xs.length ≤
        58 ^ (EncodeBase58.pass b58 x.val).1.length := by
      rw [hv, hl, hQe, hPe]
      exact hfit2
    obtain ⟨out, ho, hol, hod, hov⟩ := ih _ hd1 hfit3
    refine ⟨out, ?_, by rw [hol, hl], hod, ?_⟩
    · simp only [EncodeBase58.process]
      rw [if_pos hc0]
      exact ho
    · rw [hov, hv, base256Value_cons, List.length_cons, pow_succ, hQe]
      ring

theorem buffer_fits (n : Nat) : 256 ^ n ≤ 58 ^ (n * 138 / 100 + 1) := by
  have h0 : (256 : ℕ) ^ 100 ≤ 58 ^ 137 := by norm_num
  have hm : 137 * n ≤ 100 * (n * 138 / 100 + 1) := by omega
  have h1 : (256 ^ n) ^ 100 ≤ (58 ^ (n * 138 / 100 + 1)) ^ 100 := by
    calc (256 ^ n) ^ 100 = (256 ^ 100) ^ n := by rw [← pow_mul, ← pow_mul, Nat.mul_comm]
      _ ≤ (58 ^ 137) ^ n := Nat.pow_le_pow_left h0 n
      _ = 58 ^ (137 * n) := by rw [← pow_mul]
      _ ≤ 58 ^ (100 * (n * 138 / 100 + 1)) := Nat.pow_le_pow_right (by norm_num) hm
      _ = (58 ^ (n * 138 / 100 + 1)) ^ 100 := by rw [← pow_mul, Nat.mul_comm]
  exact (Nat.pow_le_pow_iff_left (by norm_num)).1 h1

theorem dropWhile_zero_eq_digits (L : List Nat) (h : ∀ d ∈ L, d < 58) :
    L.dropWhile (· == 0) = (Nat.digits 58 (beValue 58 L)).reverse := by
  induction L with
  | nil => simp [beValue]
  | cons d L ih =>
    rw [List.dropWhile_cons]
    by_cases hd : d = 0
    · subst hd
      simp [beValue_cons, ih (fun x hx => h x (List.mem_cons_of_mem _ hx))]
    · rw [if_neg (by simpa using hd)]
      rw [beValue_eq_ofDigits, Nat.digits_ofDigits 58 (by norm_num) _ ?_ ?_,
        List.reverse_reverse]
      · intro l hl
        exact h l (List.mem_reverse.1 hl)
      · intro hne
        simp [hd]

/-- What `EncodeBase58` returns on every input: no `assert` fails, and the string is the
reference encoding of the input split at its first non-zero byte. -/
theorem EncodeBase58_eq (vch : List Byte) :
    EncodeBase58 vch =
      some (referenceEncode (vch.takeWhile (· == 0)).length (vch.dropWhile (· == 0))) := by
  unfold EncodeBase58
  obtain ⟨out, ho, _, hod, hov⟩ := process_spec (vch.dropWhile (· == 0))
    (List.replicate ((vch.dropWhile (· == 0)).length * 138 / 100 + 1) 0)
    (fun d hd => by rw [List.eq_of_mem_replicate hd]; norm_num)
    (by rw [beValue_replicate_zero, List.length_replicate, Nat.zero_add, Nat.one_mul]
        exact buffer_fits _)
  simp only [ho]
  rw [dropWhile_zero_eq_digits out hod, hov, beValue_replicate_zero, Nat.zero_mul, Nat.zero_add]
  rfl

theorem getD_mem : ∀ d < 58, pszBase58.getD d NUL ∈ pszBase58 := by decide

theorem getD_ne_one : ∀ d < 58, d ≠ 0 → (pszBase58.getD d NUL == '1') = false := by decide

theorem symbolValue_getD : ∀ d < 58, symbolValue (pszBase58.getD d NUL) = d := by decide

theorem takeWhile_eq_nil_of_head {α : Type} (p : α → Bool) (r : List α)
    (h : ∀ x, r.head? = some x → p x = false) : r.takeWhile p = [] := by
  cases r with
  | nil => rfl
  | cons x r =>
    have hx : ¬ p x = true := by rw [h x rfl]; exact Bool.false_ne_true
    rw [List.takeWhile_cons, if_neg hx]

theorem dropWhile_eq_self_of_head {α : Type} (p : α → Bool) (r : List α)
    (h : ∀ x, r.head? = some x → p x = false) : r.dropWhile p = r := by
  cases r with
  | nil => rfl
  | cons x r =>
    have hx : ¬ p x = true := by rw [h x rfl]; exact Bool.false_ne_true
    rw [List.dropWhile_cons, if_neg hx]

theorem head_dropWhile {α : Type} (p : α → Bool) (l : List α) :
    ∀ x, (l.dropWhile p).head? = some x → p x = false := by
  induction l with
  | nil => intro x h; simp at h
  | cons y l ih =>
    intro x h
    rw [List.dropWhile_cons] at h
    split at h
    · exact ih x h
    · rename_i hy
      simp only [List.head?_cons, Option.some.injEq] at h
      rw [← h]
      simpa using hy

theorem head_ne_zero_iff (r : List Byte) :
    r.head? ≠ some 0 ↔ ∀ x, r.head? = some x → (x == 0) = false := by
  constructor
  · intro h x hx
    cases hb : x == 0 with
    | false => rfl
    | true =>
      rw [beq_iff_eq] at hb
      rw [hb] at hx
      exact absurd hx h
  · intro h h0
    have := h 0 h0
    simp at this

theorem mem_referenceEncode (k : Nat) (r : List Byte) :
    ∀ c ∈ referenceEncode k r, c ∈ pszBase58 := by
  intro c hc
  unfold referenceEncode at hc
  rcases List.mem_append.1 hc with hc | hc
  · rw [List.eq_of_mem_replicate hc]
    exact one_mem
  · obtain ⟨d, hd, rfl⟩ := List.mem_map.1 hc
    exact getD_mem d (Nat.digits_lt_base (by norm_num) (List.mem_reverse.1 hd))

theorem head_reverse_digits_ne_zero (b n x : Nat) (h : (Nat.digits b n).reverse.head? = some x) :
    x ≠ 0 := by
  have hne : Nat.digits b n ≠ [] := by
    intro e
    rw [e] at h
    simp at h
  have hn : n ≠ 0 := Nat.digits_ne_nil_iff_ne_zero.1 hne
  have h2 := Nat.getLast_digit_ne_zero b hn
  rw [List.head?_reverse, List.getLast?_eq_getLast _ hne] at h
  simp only [Option.some.injEq] at h
  rw [← h]
  exact h2

/-- C7: for `b` made of `k` zero bytes followed by `r`, where `r` is empty or starts with a
non-zero byte, `EncodeBase58(b)` returns (no `assert` failing) exactly `k` copies of `'1'`
followed by the base-58 digits of the big-endian value of `r`, most significant first,
without leading zero digit, rendered through the alphabet. The output holds alphabet
characters only and starts with exactly `k` characters `'1'`. -/
theorem EncodeBase58_eq_reference (k : Nat) (r : List Byte) (hr : r.head? ≠ some 0) :
    EncodeBase58 (List.replicate k 0 ++ r) = some (referenceEncode k r) ∧
    (∀ c ∈ referenceEncode k r, c ∈ pszBase58) ∧
    (referenceEncode k r).takeWhile (· == '1') = List.replicate k '1' := by
  have hz : ∀ x ∈ List.replicate k (0 : Byte), (x == 0) = true := by
    intro x hx
    rw [List.eq_of_mem_replicate hx]
    rfl
  have hr2 := (head_ne_zero_iff r).1 hr
  refine ⟨?_, mem_referenceEncode k r, ?_⟩
  · rw [EncodeBase58_eq, List.takeWhile_append_of_pos hz, List.dropWhile_append_of_pos hz,
      takeWhile_eq_nil_of_head _ r hr2, dropWhile_eq_self_of_head _ r hr2, List.append_nil,
      List.length_replicate]
  · unfold referenceEncode
    have h1 : ∀ x ∈ List.replicate k '1', (x == '1') = true := by
      intro x hx
      rw [List.eq_of_mem_replicate hx]
      rfl
    rw [List.takeWhile_append_of_pos h1, takeWhile_eq_nil_of_head, List.append_nil]
    intro c hc
    rw [List.head?_map] at hc
    cases hd : (Nat.digits 58 (base256Value r)).reverse.head? with
    | none => rw [hd] at hc; simp at hc
    | some d =>
      rw [hd] at hc
      simp only [Option.map_some', Option.some.injEq] at hc
      rw [← hc]
      have hmem : d ∈ Nat.digits 58 (base256Value r) :=
        List.mem_reverse.1 (List.mem_of_mem_head? hd)
      exact getD_ne_one d (Nat.digits_lt_base (by norm_num) hmem)
        (head_reverse_digits_ne_zero _ _ _ hd)

theorem EncodeBase58_eq_reference_witness :
    EncodeBase58 (List.replicate 2 0 ++ [1, 2]) = some (referenceEncode 2 [1, 2]) ∧
    (∀ c ∈ referenceEncode 2 [1, 2], c ∈ pszBase58) ∧
    (referenceEncode 2 [1, 2]).takeWhile (· == '1') = List.replicate 2 '1' :=
  EncodeBase58_eq_reference 2 [1, 2] (by decide)

/-! ## DecodeBase58: the bytes it returns -/

theorem leBytes_zero (fuel : Nat) : leBytes fuel 0 = [] := by
  cases fuel <;> simp [leBytes]

theorem leBytes_map (fuel n : Nat) (h : n ≤ fuel) :
    (leBytes fuel n).map Fin.val = Nat.digits 256 n := by
  induction fuel generalizing n with
  | zero =>
    have : n = 0 := by omega
    subst this
    simp [leBytes]
  | succ fuel ih =>
    by_cases hn : n = 0
    · subst hn
      simp [leBytes]
    · have hpos : 0 < n := Nat.pos_of_ne_zero hn
      have hdiv : n / 256 ≤ fuel := by
        have := Nat.div_lt_self hpos (by norm_num : 1 < 256)
        omega
      rw [Nat.digits_def' (by norm_num) hpos]
      simp only [leBytes, if_neg hn, List.map_cons, ih _ hdiv]
      congr 1
      show n % 256 % 256 = n % 256
      exact Nat.mod_mod _ _

theorem minimalBytes_map (n : Nat) :
    (minimalBytes n).map Fin.val = (Nat.digits 256 n).reverse := by
  unfold minimalBytes
  rw [List.map_reverse, leBytes_map n n (le_refl n)]

theorem leBytes_getLast_ne_zero (n : Nat) (x : Byte)
    (h : (leBytes n n).getLast? = some x) : x ≠ 0 := by
  obtain ⟨ys, hys⟩ := List.getLast?_eq_some_iff.1 h
  have hm := leBytes_map n n (le_refl n)
  rw [hys, List.map_append, List.map_singleton] at hm
  have hne : Nat.digits 256 n ≠ [] := by
    rw [← hm]
    simp
  have hn : n ≠ 0 := Nat.digits_ne_nil_iff_ne_zero.1 hne
  have h2 := Nat.getLast_digit_ne_zero 256 hn
  have h3 : (Nat.digits 256 n).getLast hne = x.val := by
    simp only [← hm]
    simp
  rw [h3] at h2
  intro e
  rw [e] at h2
  exact h2 rfl

theorem trimSign_sign (mag : List Byte) (h : ∀ x, mag.getLast? = some x → x ≠ 0) :
    trimSign (match mag.getLast? with
      | none => []
      | some top => if 0x80 ≤ top.val then mag ++ [0] else mag) = mag := by
  rcases List.eq_nil_or_concat mag with rfl | ⟨L, b, rfl⟩
  · rfl
  · rw [List.concat_eq_append] at h ⊢
    have hb : b ≠ 0 := h b (List.getLast?_concat L)
    rw [List.getLast?_concat]
    simp only
    by_cases hs : 0x80 ≤ b.val
    · rw [if_pos hs]
      unfold trimSign
      simp only [List.reverse_append, List.reverse_cons, List.reverse_nil, List.nil_append,
        List.singleton_append, List.cons_append]
      rw [if_pos ⟨rfl, hs⟩]
      simp
    · rw [if_neg hs]
      unfold trimSign
      simp only [List.reverse_append, List.reverse_cons, List.reverse_nil, List.nil_append,
        List.singleton_append]
      cases hL : L.reverse with
      | nil => rfl
      | cons p ps =>
        simp only
        have hb2 : ¬ (b.val = 0 ∧ 0x80 ≤ p.val) := by
          intro hh
          exact hb (Fin.ext hh.1)
        rw [if_neg hb2]

theorem trimSign_getvch (n : Nat) : (trimSign (getvch n)).reverse = minimalBytes n := by
  unfold getvch minimalBytes
  simp only
  rw [trimSign_sign _ (leBytes_getLast_ne_zero n)]

theorem base58ValueFrom_eq (bn : Nat) (s : List Char) :
    base58ValueFrom bn s = bn * 58 ^ s.length + beValue 58 (s.map symbolValue) := by
  have h := foldl_beValue 58 (s.map symbolValue) bn
  rw [List.foldl_map, List.length_map] at h
  exact h

theorem base58Value_eq (s : List Char) : base58Value s = beValue 58 (s.map symbolValue) := by
  unfold base58Value
  rw [base58ValueFrom_eq]
  simp

theorem base58Value_dropWhile_one (s : List Char) :
    base58Value (s.dropWhile (· == '1')) = base58Value s := by
  induction s with
  | nil => rfl
  | cons c s ih =>
    rw [List.dropWhile_cons]
    split
    · rename_i hc
      rw [beq_iff_eq] at hc
      subst hc
      rw [ih, base58Value_eq, base58Value_eq, List.map_cons, beValue_cons]
      have : symbolValue '1' = 0 := by decide
      rw [this]
      simp
    · rfl

theorem base58Value_replicate_one (k : Nat) (s : List Char) :
    base58Value (List.replicate k '1' ++ s) = base58Value s := by
  induction k with
  | zero => rfl
  | succ k ih =>
    rw [List.replicate_succ, List.cons_append, base58Value_eq, List.map_cons, beValue_cons,
      ← base58Value_eq, ih]
    have : symbolValue '1' = 0 := by decide
    rw [this]
    simp

/-- What `DecodeBase58` returns on a run of alphabet symbols with whitespace around it: the
minimal big-endian bytes of the base-58 value, without any zero byte in front. -/
theorem DecodeBase58_value (w1 s w2 : List Char) (hs : ∀ c ∈ s, c ∈ pszBase58)
    (h1 : ∀ c ∈ w1, isspace c = true) (h2 : ∀ c ∈ w2, isspace c = true) :
    DecodeBase58 (w1 ++ s ++ w2) = (true, minimalBytes (base58Value s)) := by
  rw [DecodeBase58_shape w1 s w2 hs h1 h2, trimSign_getvch, base58Value_dropWhile_one]

theorem DecodeBase58_alphabet (s : List Char) (hs : ∀ c ∈ s, c ∈ pszBase58) :
    DecodeBase58 s = (true, minimalBytes (base58Value s)) := by
  have := DecodeBase58_value [] s [] hs (by simp) (by simp)
  simpa using this

theorem base58Value_referenceEncode (k : Nat) (r : List Byte) :
    base58Value (referenceEncode k r) = base256Value r := by
  unfold referenceEncode
  rw [base58Value_replicate_one, base58Value_eq, List.map_map]
  have hmap : List.map (symbolValue ∘ fun d => pszBase58.getD d NUL)
      (Nat.digits 58 (base256Value r)).reverse = (Nat.digits 58 (base256Value r)).reverse := by
    conv_rhs => rw [← List.map_id (Nat.digits 58 (base256Value r)).reverse]
    apply List.map_congr_left
    intro d hd
    exact symbolValue_getD d (Nat.digits_lt_base (by norm_num) (List.mem_reverse.1 hd))
  rw [hmap, beValue_eq_ofDigits, List.reverse_reverse, Nat.ofDigits_digits]

theorem minimalBytes_base256Value (r : List Byte) (hr : r.head? ≠ some 0) :
    minimalBytes (base256Value r) = r := by
  apply List.map_injective_iff.2 Fin.val_injective
  rw [minimalBytes_map]
  unfold base256Value
  rw [beValue_eq_ofDigits, Nat.digits_ofDigits 256 (by norm_num), List.reverse_reverse]
  · intro l hl
    obtain ⟨x, _, rfl⟩ := List.mem_map.1 (List.mem_reverse.1 hl)
    exact x.isLt
  · intro hne
    cases r with
    | nil => simp at hne
    | cons x r =>
      simp only [List.map_cons, List.reverse_cons, ne_eq, List.cons_ne_self, not_false_eq_true,
        List.getLast_append_of_ne_nil, List.getLast_singleton]
      intro e
      apply hr
      simp only [List.head?_cons, Option.some.injEq]
      exact Fin.ext e

/-- Decoding what `EncodeBase58` produced gives the input without its leading zero bytes:
the `'1'`s that stood for them are skipped and never restored. -/
theorem DecodeBase58_EncodeBase58 (b : List Byte) :
    ∃ s, EncodeBase58 b = some s ∧ DecodeBase58 s = (true, b.dropWhile (· == 0)) := by
  refine ⟨_, EncodeBase58_eq b, ?_⟩
  rw [DecodeBase58_alphabet _ (mem_referenceEncode _ _), base58Value_referenceEncode,
    minimalBytes_base256Value _ ((head_ne_zero_iff _).2 (head_dropWhile _ b))]

/-! ## Round trips: the leading zero bytes are lost -/

theorem length_dropWhile_lt_of_head (b : List Byte) (h : b.head? = some 0) :
    (b.dropWhile (· == 0)).length < b.length := by
  cases b with
  | nil => simp at h
  | cons x b =>
    simp only [List.head?_cons, Option.some.injEq] at h
    subst h
    have h0 : ((0 : Byte) == 0) = true := rfl
    rw [List.dropWhile_cons, if_pos h0, List.length_cons]
    exact Nat.lt_succ_of_le (List.dropWhile_sublist _).length_le

theorem DecodeBase58Check_true (Hash : List Byte → uint256) (psz : List Char) (v : List Byte)
    (h : DecodeBase58Check Hash psz = (true, v)) :
    4 ≤ (DecodeBase58 psz).2.length ∧
      v = (DecodeBase58 psz).2.take ((DecodeBase58 psz).2.length - 4) := by
  unfold DecodeBase58Check at h
  simp only at h
  split at h
  · simp at h
  · rename_i h1
    split at h
    · simp at h
    · simp only [Bool.or_eq_true, Bool.not_eq_true', decide_eq_true_eq, not_or,
        Bool.not_eq_false, not_lt] at h1
      simp only [Prod.mk.injEq, true_and] at h
      exact ⟨h1.2, h.symm⟩

theorem length_checksum (Hash : List Byte → uint256) (b : List Byte) :
    ((Hash b).bytes.take 4).length = 4 := by
  rw [List.length_take, (Hash b).size_eq]
  rfl

/-- After `EncodeBase58Check`, `DecodeBase58Check` cannot return a byte sequence that begins
with a zero byte: what it returns is shorter than the input. -/
theorem DecodeBase58Check_EncodeBase58Check_ne (Hash : List Byte → uint256) (b : List Byte)
    (h : b.head? = some 0) :
    ∃ s, EncodeBase58Check Hash b = some s ∧ DecodeBase58Check Hash s ≠ (true, b) := by
  obtain ⟨s, hs, hd⟩ := DecodeBase58_EncodeBase58 (b ++ (Hash b).bytes.take 4)
  refine ⟨s, hs, ?_⟩
  intro heq
  obtain ⟨h4, hb⟩ := DecodeBase58Check_true Hash s b heq
  rw [hd] at h4 hb
  simp only at h4 hb
  have hhead : (b ++ (Hash b).bytes.take 4).head? = some 0 := by
    cases b with
    | nil => simp at h
    | cons x b => simpa using h
  have hlt := length_dropWhile_lt_of_head _ hhead
  rw [List.length_append, length_checksum] at hlt
  have hlen := congrArg List.length hb
  rw [List.length_take] at hlen
  omega

theorem SetString_eq (Hash : List Byte → uint256) (N : Nat)
    (blk : List Byte → Nat → CBase58Data → ExtKeyOutcome)
    (self : CBase58Data) (psz : List Char) (n : Nat) :
    CBase58Data.SetString Hash N blk self psz n =
      (if (!(DecodeBase58Check Hash psz).1 || decide ((DecodeBase58Check Hash psz).2.length < n))
          = true then
        (⟨false, ⟨[], []⟩, (DecodeBase58Check Hash psz).2⟩ : SetStringResult)
      else ⟨true, ⟨(DecodeBase58Check Hash psz).2.take n, (DecodeBase58Check Hash psz).2.drop n⟩,
        memory_cleanse (DecodeBase58Check Hash psz).2
          ((DecodeBase58Check Hash psz).2.drop n).length⟩) := by
  have hN : ¬ (([] : List Byte).length = N + 4) := by simp
  unfold CBase58Data.SetString
  simp only [if_neg hN]

/-- C1: the Base58 round trip fails on every byte sequence `b` that begins with a zero byte:
`EncodeBase58(b)` returns a string on which `DecodeBase58` succeeds, but with `b` stripped
of all its leading zero bytes, which is not `b`. -/
theorem DecodeBase58_EncodeBase58_leading_zero (b : List Byte) (h : b.head? = some 0) :
    ∃ s, EncodeBase58 b = some s ∧ DecodeBase58 s = (true, b.dropWhile (· == 0)) ∧
      DecodeBase58 s ≠ (true, b) := by
  obtain ⟨s, hs, hd⟩ := DecodeBase58_EncodeBase58 b
  refine ⟨s, hs, hd, ?_⟩
  rw [hd]
  intro e
  have hlt := length_dropWhile_lt_of_head b h
  simp only [Prod.mk.injEq, true_and] at e
  rw [e] at hlt
  exact Nat.lt_irrefl _ hlt

theorem DecodeBase58_EncodeBase58_leading_zero_witness :
    ∃ s, EncodeBase58 [0, 1, 2] = some s ∧
      DecodeBase58 s = (true, List.dropWhile (· == 0) [0, 1, 2]) ∧
      DecodeBase58 s ≠ (true, [0, 1, 2]) :=
  DecodeBase58_EncodeBase58_leading_zero [0, 1, 2] (by decide)

/-- C2: the Base58Check round trip fails, whatever the hash function, on every byte
sequence `b` that begins with a zero byte: `DecodeBase58Check(EncodeBase58Check(b))` does
not return `b`. -/
theorem Base58Check_leading_zero (Hash : List Byte → uint256) (b : List Byte)
    (h : b.head? = some 0) :
    ∃ s, EncodeBase58Check Hash b = some s ∧ DecodeBase58Check Hash s ≠ (true, b) :=
  DecodeBase58Check_EncodeBase58Check_ne Hash b h

theorem Base58Check_leading_zero_witness :
    ∃ s, EncodeBase58Check zeroHash [0, 7] = some s ∧
      DecodeBase58Check zeroHash s ≠ (true, [0, 7]) :=
  Base58Check_leading_zero zeroHash [0, 7] (by decide)

/-- C3: the container round trip fails, whatever the hash function, on every container
whose version followed by its data begins with a zero byte: `SetString(ToString(), length of
version)` does not both return `true` and leave that version and data. -/
theorem SetString_ToString_leading_zero (Hash : List Byte → uint256) (N : Nat)
    (blk : List Byte → Nat → CBase58Data → ExtKeyOutcome) (self c : CBase58Data)
    (h : (c.vchVersion ++ c.vchData).head? = some 0) :
    ∃ s, c.ToString Hash = some s ∧
      ¬ ((CBase58Data.SetString Hash N blk self s c.vchVersion.length).ret = true ∧
        (CBase58Data.SetString Hash N blk self s c.vchVersion.length).self = c) := by
  obtain ⟨s, hs, hne⟩ := DecodeBase58Check_EncodeBase58Check_ne Hash _ h
  refine ⟨s, hs, ?_⟩
  rw [SetString_eq]
  rintro ⟨hret, hself⟩
  split at hret
  · simp at hret
  · rename_i hc
    rw [if_neg hc] at hself
    simp only [Bool.or_eq_true, Bool.not_eq_true', decide_eq_true_eq, not_or,
      Bool.not_eq_false, not_lt] at hc
    apply hne
    have hv : (DecodeBase58Check Hash s).2 = c.vchVersion ++ c.vchData := by
      have e1 := congrArg CBase58Data.vchVersion hself
      have e2 := congrArg CBase58Data.vchData hself
      simp only at e1 e2
      rw [← e1, ← e2]
      exact (List.take_append_drop _ _).symm
    rw [← hv, ← hc.1]

theorem SetString_ToString_leading_zero_witness :
    ∃ s, CBase58Data.ToString zeroHash ⟨[0], [5, 6]⟩ = some s ∧
      ¬ ((CBase58Data.SetString zeroHash 74 returningBlock CBase58Data.new s
            (CBase58Data.vchVersion ⟨[0], [5, 6]⟩).length).ret = true ∧
        (CBase58Data.SetString zeroHash 74 returningBlock CBase58Data.new s
            (CBase58Data.vchVersion ⟨[0], [5, 6]⟩).length).self = ⟨[0], [5, 6]⟩) :=
  SetString_ToString_leading_zero zeroHash 74 returningBlock CBase58Data.new ⟨[0], [5, 6]⟩
    (by decide)

/-- C8: on `k > 0` copies of `'1'` followed by a run `s` of alphabet symbols, `DecodeBase58`
succeeds and returns the minimal big-endian bytes of the base-58 value of `s` alone: the `k`
zero bytes the leading `'1'`s stand for are not in the result. -/
theorem DecodeBase58_leading_ones (k : Nat) (s : List Char) (hs : ∀ c ∈ s, c ∈ pszBase58)
    (hk : 0 < k) :
    DecodeBase58 (List.replicate k '1' ++ s) = (true, minimalBytes (base58Value s)) ∧
    DecodeBase58 (List.replicate k '1' ++ s) ≠
      (true, List.replicate k 0 ++ minimalBytes (base58Value s)) := by
  have hmem : ∀ c ∈ List.replicate k '1' ++ s, c ∈ pszBase58 := by
    intro c hc
    rcases List.mem_append.1 hc with hc | hc
    · rw [List.eq_of_mem_replicate hc]
      exact one_mem
    · exact hs c hc
  have e : DecodeBase58 (List.replicate k '1' ++ s) = (true, minimalBytes (base58Value s)) := by
    rw [DecodeBase58_alphabet _ hmem, base58Value_replicate_one]
  refine ⟨e, ?_⟩
  rw [e]
  intro h
  simp only [Prod.mk.injEq, true_and] at h
  have := congrArg List.length h
  rw [List.length_append, List.length_replicate] at this
  omega

theorem DecodeBase58_leading_ones_witness :
    DecodeBase58 (List.replicate 2 '1' ++ "5T".toList) =
        (true, minimalBytes (base58Value "5T".toList)) ∧
    DecodeBase58 (List.replicate 2 '1' ++ "5T".toList) ≠
      (true, List.replicate 2 0 ++ minimalBytes (base58Value "5T".toList)) :=
  DecodeBase58_leading_ones 2 "5T".toList (by decide) (by decide)

/-! ## EncodeBase58Check, conformance vectors, injectivity -/

/-- C11: `EncodeBase58Check(b)` is `EncodeBase58(b ++ c)` where `c` is the first 4 bytes of
the digest of `b`; `c` has exactly 4 bytes and the call returns a string (no `assert`
fails). The input is a value the function only reads. -/
theorem EncodeBase58Check_eq (Hash : List Byte → uint256) (b : List Byte) :
    EncodeBase58Check Hash b = EncodeBase58 (b ++ (Hash b).bytes.take 4) ∧
    ((Hash b).bytes.take 4).length = 4 ∧
    ∃ s, EncodeBase58Check Hash b = some s := by
  refine ⟨rfl, length_checksum Hash b, ?_⟩
  exact ⟨_, EncodeBase58_eq _⟩

/-- C14: `EncodeBase58` of the empty byte sequence is the empty string, and `DecodeBase58`
of the empty string succeeds with the empty byte sequence. -/
theorem empty_input : EncodeBase58 [] = some "".toList ∧ DecodeBase58 "".toList = (true, []) := by
  decide

/-- C15: `EncodeBase58` of `[0x00, 0x01, 0x02, 0x03]` is `"1Ldp"`: one `'1'` for the leading
zero byte, then the base-58 digits 19, 36, 47 of `0x010203 = 66051` through the alphabet. -/
theorem conformance_vector :
    EncodeBase58 [0x00, 0x01, 0x02, 0x03] = some "1Ldp".toList ∧
    base256Value [0x01, 0x02, 0x03] = 66051 ∧
    19 * 58 ^ 2 + 36 * 58 + 47 = 66051 ∧
    [pszBase58.getD 0 NUL, pszBase58.getD 19 NUL, pszBase58.getD 36 NUL,
      pszBase58.getD 47 NUL] = "1Ldp".toList := by
  decide

theorem takeWhile_one_referenceEncode (k : Nat) (r : List Byte) :
    (referenceEncode k r).takeWhile (· == '1') = List.replicate k '1' := by
  unfold referenceEncode
  have h1 : ∀ x ∈ List.replicate k '1', (x == '1') = true := by
    intro x hx
    rw [List.eq_of_mem_replicate hx]
    rfl
  rw [List.takeWhile_append_of_pos h1, takeWhile_eq_nil_of_head, List.append_nil]
  intro c hc
  rw [List.head?_map] at hc
  cases hd : (Nat.digits 58 (base256Value r)).reverse.head? with
  | none => rw [hd] at hc; simp at hc
  | some d =>
    rw [hd] at hc
    simp only [Option.map_some', Option.some.injEq] at hc
    rw [← hc]
    have hmem : d ∈ Nat.digits 58 (base256Value r) :=
      List.mem_reverse.1 (List.mem_of_mem_head? hd)
    exact getD_ne_one d (Nat.digits_lt_base (by norm_num) hmem)
      (head_reverse_digits_ne_zero _ _ _ hd)

theorem takeWhile_zero_eq_replicate (b : List Byte) :
    b.takeWhile (· == 0) = List.replicate (b.takeWhile (· == 0)).length 0 := by
  apply List.eq_replicate_iff.2
  refine ⟨rfl, ?_⟩
  intro x hx
  have := List.mem_takeWhile_imp hx
  simpa using this

/-- C19: for every byte sequence `b`, `EncodeBase58(b)` returns a string on which
`DecodeBase58` succeeds and returns `b` without its leading zero bytes; so it returns `b`
itself when `b` is empty or starts with a non-zero byte. -/
theorem DecodeBase58_EncodeBase58_strips (b : List Byte) :
    ∃ s, EncodeBase58 b = some s ∧ DecodeBase58 s = (true, b.dropWhile (· == 0)) ∧
      (b.head? ≠ some 0 → DecodeBase58 s = (true, b)) := by
  obtain ⟨s, hs, hd⟩ := DecodeBase58_EncodeBase58 b
  refine ⟨s, hs, hd, ?_⟩
  intro hb
  rw [hd, dropWhile_eq_self_of_head _ b ((head_ne_zero_iff b).1 hb)]

theorem DecodeBase58_EncodeBase58_strips_witness :
    ∃ s, EncodeBase58 [0, 0, 9, 0] = some s ∧ DecodeBase58 s = (true, [9, 0]) :=
  (DecodeBase58_EncodeBase58_strips [0, 0, 9, 0]).imp fun _ h => ⟨h.1, h.2.1⟩

/-- C20: `EncodeBase58` is injective: two byte sequences with the same encoding are equal,
also when they differ only in the number of leading zero bytes. -/
theorem EncodeBase58_injective (b1 b2 : List Byte) (h : EncodeBase58 b1 = EncodeBase58 b2) :
    b1 = b2 := by
  rw [EncodeBase58_eq, EncodeBase58_eq] at h
  have h := Option.some.inj h
  have hk : (b1.takeWhile (· == 0)).length = (b2.takeWhile (· == 0)).length := by
    have := congrArg (fun s => (List.takeWhile (· == '1') s).length) h
    simpa [takeWhile_one_referenceEncode] using this
  have hr : b1.dropWhile (· == 0) = b2.dropWhile (· == 0) := by
    have hv := congrArg base58Value h
    rw [base58Value_referenceEncode, base58Value_referenceEncode] at hv
    rw [← minimalBytes_base256Value _ ((head_ne_zero_iff _).2 (head_dropWhile _ b1)),
      ← minimalBytes_base256Value _ ((head_ne_zero_iff _).2 (head_dropWhile _ b2)), hv]
  rw [← List.takeWhile_append_dropWhile (· == 0) b1,
    ← List.takeWhile_append_dropWhile (· == 0) b2, hr, takeWhile_zero_eq_replicate b1,
    takeWhile_zero_eq_replicate b2, hk]

theorem EncodeBase58_injective_witness :
    EncodeBase58 [0, 5] = EncodeBase58 ([0] ++ [5]) ∧ ([0, 5] : List Byte) = [0] ++ [5] :=
  ⟨by decide, EncodeBase58_injective [0, 5] ([0] ++ [5]) (by decide)⟩

/-! ## CompareTo -/

theorem vecLt_iff_lex (a b : List Byte) : vecLt a b = true ↔ List.Lex (· < ·) a b := by
  induction a generalizing b with
  | nil =>
    cases b with
    | nil => simp [vecLt, List.Lex.not_nil_right]
    | cons y ys => simp [vecLt, List.Lex.nil]
  | cons x xs ih =>
    cases b with
    | nil => simp [vecLt, List.Lex.not_nil_right]
    | cons y ys =>
      unfold vecLt
      by_cases h1 : x < y
      · rw [if_pos h1]
        exact ⟨fun _ => List.Lex.rel h1, fun _ => rfl⟩
      · rw [if_neg h1]
        by_cases h2 : y < x
        · rw [if_pos h2]
          constructor
          · intro h
            exact Bool.noConfusion h
          · intro h
            cases h with
            | cons h3 => exact absurd h2 (lt_irrefl _)
            | rel h3 => exact absurd h3 h1
        · rw [if_neg h2]
          have hxy : x = y := le_antisymm (not_lt.1 h2) (not_lt.1 h1)
          subst hxy
          rw [ih ys, List.Lex.cons_iff]

theorem lex_trichotomy (x y : List Byte) :
    List.Lex (· < ·) x y ∨ x = y ∨ List.Lex (· < ·) y x :=
  (List.Lex.isTrichotomous (· < ·)).trichotomous x y

theorem lex_asymm {x y : List Byte} (h : List.Lex (· < ·) x y) : ¬ List.Lex (· < ·) y x :=
  (List.Lex.isAsymm (· < ·)).asymm x y h

theorem lex_irrefl (x : List Byte) : ¬ List.Lex (· < ·) x x :=
  fun h => lex_asymm h h

theorem lex_trans {x y z : List Byte} (h1 : List.Lex (· < ·) x y)
    (h2 : List.Lex (· < ·) y z) : List.Lex (· < ·) x z :=
  @IsTrans.trans (List Byte) (List.Lex (· < ·)) inferInstance x y z h1 h2

theorem vecLt_false_of_lex {x y : List Byte} (h : List.Lex (· < ·) x y) : vecLt y x = false := by
  cases hb : vecLt y x with
  | false => rfl
  | true => exact absurd ((vecLt_iff_lex y x).1 hb) (lex_asymm h)

theorem vecLt_self (x : List Byte) : vecLt x x = false := by
  cases hb : vecLt x x with
  | false => rfl
  | true => exact absurd ((vecLt_iff_lex x x).1 hb) (lex_irrefl x)

theorem Less_irrefl (a : CBase58Data) : ¬ a.Less a := by
  rintro (h | ⟨_, h⟩)
  · exact lex_irrefl _ h
  · exact lex_irrefl _ h

theorem Less_trans {a b c : CBase58Data} (h1 : a.Less b) (h2 : b.Less c) : a.Less c := by
  rcases h1 with h1 | ⟨e1, h1⟩
  · rcases h2 with h2 | ⟨e2, h2⟩
    · exact Or.inl (lex_trans h1 h2)
    · exact Or.inl (e2 ▸ h1)
  · rcases h2 with h2 | ⟨e2, h2⟩
    · exact Or.inl (e1 ▸ h2)
    · exact Or.inr ⟨e1.trans e2, lex_trans h1 h2⟩

theorem Less_asymm {a b : CBase58Data} (h : a.Less b) : ¬ b.Less a :=
  fun h2 => Less_irrefl a (Less_trans h h2)

theorem CompareTo_of_Less {a b : CBase58Data} (h : a.Less b) :
    a.CompareTo b = -1 ∧ b.CompareTo a = 1 := by
  unfold CBase58Data.CompareTo
  rcases h with h | ⟨e, h⟩
  · rw [if_pos ((vecLt_iff_lex _ _).2 h), vecLt_false_of_lex h,
      if_pos ((vecLt_iff_lex _ _).2 h)]
    exact ⟨rfl, rfl⟩
  · rw [e, vecLt_self, if_pos ((vecLt_iff_lex _ _).2 h), vecLt_false_of_lex h,
      if_pos ((vecLt_iff_lex _ _).2 h)]
    exact ⟨rfl, rfl⟩

theorem CompareTo_self (a : CBase58Data) : a.CompareTo a = 0 := by
  unfold CBase58Data.CompareTo
  rw [vecLt_self, vecLt_self]
  rfl

theorem Less_trichotomy (a b : CBase58Data) : a.Less b ∨ a = b ∨ b.Less a := by
  rcases lex_trichotomy a.vchVersion b.vchVersion with h | h | h
  · exact Or.inl (Or.inl h)
  · rcases lex_trichotomy a.vchData b.vchData with h2 | h2 | h2
    · exact Or.inl (Or.inr ⟨h, h2⟩)
    · right; left
      cases a; cases b
      simp only at h h2
      rw [h, h2]
    · exact Or.inr (Or.inr (Or.inr ⟨h.symm, h2⟩))
  · exact Or.inr (Or.inr (Or.inl h))

theorem CompareTo_cases (a b : CBase58Data) :
    (a.Less b ∧ a.CompareTo b = -1 ∧ b.CompareTo a = 1) ∨
    (a = b ∧ a.CompareTo b = 0 ∧ b.CompareTo a = 0) ∨
    (b.Less a ∧ a.CompareTo b = 1 ∧ b.CompareTo a = -1) := by
  rcases Less_trichotomy a b with h | h | h
  · exact Or.inl ⟨h, CompareTo_of_Less h⟩
  · subst h
    exact Or.inr (Or.inl ⟨rfl, CompareTo_self a, CompareTo_self a⟩)
  · exact Or.inr (Or.inr ⟨h, (CompareTo_of_Less h).2, (CompareTo_of_Less h).1⟩)

theorem CompareTo_nonpos_iff (a b : CBase58Data) : a.CompareTo b ≤ 0 ↔ ¬ b.Less a := by
  rcases CompareTo_cases a b with ⟨h, e, _⟩ | ⟨h, e, _⟩ | ⟨h, e, _⟩
  · rw [e]
    exact ⟨fun _ => Less_asymm h, fun _ => by decide⟩
  · rw [e, h]
    exact ⟨fun _ => Less_irrefl b, fun _ => le_refl 0⟩
  · rw [e]
    exact ⟨fun h0 => absurd h0 (by decide), fun h0 => absurd h h0⟩

/-- C12: the version dominates the ordering: if `a.version` is lexicographically less than
`b.version` then `a.CompareTo(b) = -1` and `b.CompareTo(a) = 1`, whatever the data; when the
versions are equal the result is the lexicographic comparison of the data. -/
theorem CompareTo_version_dominates (a b : CBase58Data) :
    (List.Lex (· < ·) a.vchVersion b.vchVersion → a.CompareTo b = -1 ∧ b.CompareTo a = 1) ∧
    (a.vchVersion = b.vchVersion →
      (List.Lex (· < ·) a.vchData b.vchData → a.CompareTo b = -1) ∧
      (a.vchData = b.vchData → a.CompareTo b = 0) ∧
      (List.Lex (· < ·) b.vchData a.vchData → a.CompareTo b = 1)) := by
  refine ⟨fun h => CompareTo_of_Less (Or.inl h), fun e => ⟨?_, ?_, ?_⟩⟩
  · exact fun h => (CompareTo_of_Less (Or.inr ⟨e, h⟩)).1
  · intro h
    have : a = b := by
      cases a; cases b
      simp only at e h
      rw [e, h]
    rw [this]
    exact CompareTo_self b
  · exact fun h => (CompareTo_of_Less (Or.inr ⟨e.symm, h⟩)).2

theorem CompareTo_version_dominates_witness :
    CBase58Data.CompareTo ⟨[1], [9, 9]⟩ ⟨[1, 0], []⟩ = -1 ∧
      CBase58Data.CompareTo ⟨[1, 0], []⟩ ⟨[1], [9, 9]⟩ = 1 :=
  (CompareTo_version_dominates ⟨[1], [9, 9]⟩ ⟨[1, 0], []⟩).1 ((vecLt_iff_lex _ _).1 (by decide))

/-- C13: `CompareTo` is a total order on containers: the result is -1, 0 or 1; it is 0
exactly when the versions and the data are equal; `a.CompareTo(b) = -(b.CompareTo(a))`; and
`a.CompareTo(b) <= 0` with `b.CompareTo(c) <= 0` gives `a.CompareTo(c) <= 0`. -/
theorem CompareTo_total_order (a b c : CBase58Data) :
    (a.CompareTo b = -1 ∨ a.CompareTo b = 0 ∨ a.CompareTo b = 1) ∧
    (a.CompareTo b = 0 ↔ a.vchVersion = b.vchVersion ∧ a.vchData = b.vchData) ∧
    a.CompareTo b = -(b.CompareTo a) ∧
    (a.CompareTo b ≤ 0 → b.CompareTo c ≤ 0 → a.CompareTo c ≤ 0) := by
  refine ⟨?_, ?_, ?_, ?_⟩
  · rcases CompareTo_cases a b with ⟨_, e, _⟩ | ⟨_, e, _⟩ | ⟨_, e, _⟩
    · exact Or.inl e
    · exact Or.inr (Or.inl e)
    · exact Or.inr (Or.inr e)
  · rcases CompareTo_cases a b with ⟨h, e, _⟩ | ⟨h, e, _⟩ | ⟨h, e, _⟩
    · rw [e]
      refine ⟨fun h0 => absurd h0 (by decide), ?_⟩
      rintro ⟨e1, e2⟩
      have : a = b := by
        cases a; cases b
        simp only at e1 e2
        rw [e1, e2]
      exact absurd (this ▸ h) (Less_irrefl b)
    · rw [e, h]
      exact ⟨fun _ => ⟨rfl, rfl⟩, fun _ => rfl⟩
    · rw [e]
      refine ⟨fun h0 => absurd h0 (by decide), ?_⟩
      rintro ⟨e1, e2⟩
      have : a = b := by
        cases a; cases b
        simp only at e1 e2
        rw [e1, e2]
      exact absurd (this ▸ h) (Less_irrefl b)
  · rcases CompareTo_cases a b with ⟨_, e1, e2⟩ | ⟨_, e1, e2⟩ | ⟨_, e1, e2⟩ <;>
      rw [e1, e2] <;> rfl
  · intro h1 h2
    rw [CompareTo_nonpos_iff] at h1 h2 ⊢
    intro hca
    rcases Less_trichotomy b c with h | h | h
    · exact h1 (Less_trans h hca)
    · exact h1 (h ▸ hca)
    · exact h2 h

theorem CompareTo_total_order_witness :
    CBase58Data.CompareTo ⟨[1], [2]⟩ ⟨[1], [2, 0]⟩ ≤ 0 ∧
      CBase58Data.CompareTo ⟨[1], [2, 0]⟩ ⟨[3], []⟩ ≤ 0 ∧
      CBase58Data.CompareTo ⟨[1], [2]⟩ ⟨[3], []⟩ ≤ 0 :=
  ⟨by decide, by decide,
    (CompareTo_total_order ⟨[1], [2]⟩ ⟨[1], [2, 0]⟩ ⟨[3], []⟩).2.2.2 (by decide) (by decide)⟩

/-! ## EncodeBase58: the carry of every pass -/

theorem process_append (pre l : List Byte) (b58 : List Nat) :
    EncodeBase58.process (pre ++ l) b58 =
      (EncodeBase58.process pre b58).bind (EncodeBase58.process l) := by
  induction pre generalizing b58 with
  | nil => rfl
  | cons x pre ih =>
    simp only [List.cons_append, EncodeBase58.process]
    split
    · exact ih _
    · rfl

theorem passCarries_bound (ds : List Nat) (c : Nat) (hd : ∀ d ∈ ds, d < 58) (hc : c ≤ 255) :
    (EncodeBase58.pass ds c).2 ≤ 255 ∧ ∀ v ∈ EncodeBase58.passCarries ds c, v ≤ 14847 := by
  induction ds with
  | nil => exact ⟨hc, by simp [EncodeBase58.passCarries]⟩
  | cons d ds ih =>
    obtain ⟨h1, h2⟩ := ih (fun x hx => hd x (List.mem_cons_of_mem _ hx))
    have hd0 : d < 58 := hd d (List.mem_cons_self _ _)
    simp only [EncodeBase58.pass, EncodeBase58.passCarries]
    refine ⟨by omega, ?_⟩
    intro v hv
    rcases List.mem_append.1 hv with hv | hv
    · exact h2 v hv
    · simp only [List.mem_cons, List.mem_singleton, List.not_mem_nil, or_false] at hv
      rcases hv with rfl | rfl <;> omega

theorem pow_le_buffer (k n : Nat) (h : k ≤ n) : 256 ^ k ≤ 58 ^ (n * 138 / 100 + 1) :=
  le_trans (Nat.pow_le_pow_right (by norm_num) h) (buffer_fits n)

/-- C17: in `EncodeBase58`, with `n` bytes left after the leading zero bytes, the buffer of
`n * 138 / 100 + 1` base-58 digits is large enough: at the pass of every input byte `x` the
bytes before it were processed without a failed `assert`, the pass leaves `carry = 0`,
every cell of the buffer is below 58 before and after it, and every value `carry` takes is
below `2 ^ 31`. -/
theorem EncodeBase58_no_residual_carry (vch pre : List Byte) (x : Byte) (post : List Byte)
    (h : vch.dropWhile (· == 0) = pre ++ x :: post) :
    ∃ b58, EncodeBase58.process pre
        (List.replicate ((vch.dropWhile (· == 0)).length * 138 / 100 + 1) 0) = some b58 ∧
      b58.length = (vch.dropWhile (· == 0)).length * 138 / 100 + 1 ∧
      (∀ d ∈ b58, d < 58) ∧
      (EncodeBase58.pass b58 x.val).2 = 0 ∧
      (∀ d ∈ (EncodeBase58.pass b58 x.val).1, d < 58) ∧
      (∀ v ∈ x.val :: EncodeBase58.passCarries b58 x.val, v < 2 ^ 31) := by
  have hlen : (vch.dropWhile (· == 0)).length = pre.length + 1 + post.length := by
    rw [h, List.length_append, List.length_cons]
    omega
  generalize (vch.dropWhile (· == 0)).length = n at hlen ⊢
  have hz : ∀ d ∈ List.replicate (n * 138 / 100 + 1) 0, d < 58 := by
    intro d hd
    rw [List.eq_of_mem_replicate hd]
    norm_num
  obtain ⟨b58, hb, hbl, hbd, _⟩ := process_spec pre (List.replicate (n * 138 / 100 + 1) 0) hz
    (by rw [beValue_replicate_zero, List.length_replicate, Nat.zero_add, Nat.one_mul]
        exact pow_le_buffer _ _ (by omega))
  obtain ⟨out, ho, _⟩ := process_spec (pre ++ [x]) (List.replicate (n * 138 / 100 + 1) 0) hz
    (by rw [beValue_replicate_zero, List.length_replicate, Nat.zero_add, Nat.one_mul]
        exact pow_le_buffer _ _ (by rw [List.length_append, List.length_singleton]; omega))
  have hc0 : (EncodeBase58.pass b58 x.val).2 = 0 := by
    rw [process_append, hb] at ho
    simp only [Option.some_bind, EncodeBase58.process] at ho
    by_contra hne
    rw [if_neg hne] at ho
    exact Option.noConfusion ho
  refine ⟨b58, hb, by rw [hbl, List.length_replicate], hbd, hc0, (pass_spec b58 x.val).2.1, ?_⟩
  have hx : x.val ≤ 255 := by
    have := x.isLt
    omega
  intro v hv
  rcases List.mem_cons.1 hv with rfl | hv
  · exact lt_of_le_of_lt hx (by norm_num)
  · exact lt_of_le_of_lt ((passCarries_bound b58 x.val hbd hx).2 v hv) (by norm_num)

theorem EncodeBase58_no_residual_carry_witness :
    ∃ b58, EncodeBase58.process [255]
        (List.replicate ((List.dropWhile (· == 0) ([0, 255, 255, 255] : List Byte)).length
          * 138 / 100 + 1) 0) = some b58 ∧
      b58.length = (List.dropWhile (· == 0) ([0, 255, 255, 255] : List Byte)).length
          * 138 / 100 + 1 ∧
      (∀ d ∈ b58, d < 58) ∧
      (EncodeBase58.pass b58 (255 : Byte).val).2 = 0 ∧
      (∀ d ∈ (EncodeBase58.pass b58 (255 : Byte).val).1, d < 58) ∧
      (∀ v ∈ (255 : Byte).val :: EncodeBase58.passCarries b58 (255 : Byte).val, v < 2 ^ 31) :=
  EncodeBase58_no_residual_carry [0, 255, 255, 255] [255] 255 [255] (by decide)

/-! ## SetString: what is left in the scratch vector -/

/-- C18: when `SetString` succeeds, `memory_cleanse(&vchTemp[0], vchData.size())` has
zeroed only the first `length(data)` bytes of the scratch vector: its last
`length(version)` bytes still hold the bytes that followed them in the decoded
version+data, so the vector is not all zero whenever one of those is non-zero. -/
theorem SetString_scratch (Hash : List Byte → uint256) (N : Nat)
    (blk : List Byte → Nat → CBase58Data → ExtKeyOutcome)
    (self : CBase58Data) (psz : List Char) (n : Nat)
    (h : (CBase58Data.SetString Hash N blk self psz n).ret = true) :
    (CBase58Data.SetString Hash N blk self psz n).vchTemp =
      List.replicate (CBase58Data.SetString Hash N blk self psz n).self.vchData.length 0 ++
        List.drop (CBase58Data.SetString Hash N blk self psz n).self.vchData.length
          ((CBase58Data.SetString Hash N blk self psz n).self.vchVersion ++
            (CBase58Data.SetString Hash N blk self psz n).self.vchData) ∧
    ((∃ b ∈ List.drop (CBase58Data.SetString Hash N blk self psz n).self.vchData.length
          ((CBase58Data.SetString Hash N blk self psz n).self.vchVersion ++
            (CBase58Data.SetString Hash N blk self psz n).self.vchData), b ≠ 0) →
      (CBase58Data.SetString Hash N blk self psz n).vchTemp ≠
        List.replicate ((CBase58Data.SetString Hash N blk self psz n).self.vchVersion.length +
          (CBase58Data.SetString Hash N blk self psz n).self.vchData.length) 0) := by
  rw [SetString_eq] at h ⊢
  split at h
  · simp at h
  · rename_i hc
    rw [if_neg hc]
    simp only [Bool.or_eq_true, Bool.not_eq_true', decide_eq_true_eq, not_or,
      Bool.not_eq_false, not_lt] at hc
    generalize (DecodeBase58Check Hash psz).2 = v at hc ⊢
    simp only [List.take_append_drop]
    have hmin : min (List.drop n v).length v.length = (List.drop n v).length := by
      rw [List.length_drop]
      omega
    have e : memory_cleanse v (List.drop n v).length =
        List.replicate (List.drop n v).length 0 ++ List.drop (List.drop n v).length v := by
      unfold memory_cleanse
      rw [hmin]
    refine ⟨e, ?_⟩
    rintro ⟨b, hb, hb0⟩ heq
    rw [e] at heq
    have hmem : b ∈ List.replicate (List.drop n v).length (0 : Byte) ++
        List.drop (List.drop n v).length v := List.mem_append_right _ hb
    rw [heq] at hmem
    exact hb0 (List.eq_of_mem_replicate hmem)

theorem SetString_scratch_witness :
    (CBase58Data.SetString zeroHash 74 returningBlock CBase58Data.new "7YXq9H".toList 1).vchTemp
      = [1] ∧
    (CBase58Data.SetString zeroHash 74 returningBlock CBase58Data.new "7YXq9H".toList 1).vchTemp
      ≠ List.replicate (1 + 0) 0 :=
  ⟨by decide,
    (SetString_scratch zeroHash 74 returningBlock CBase58Data.new "7YXq9H".toList 1
      (by decide)).2 ⟨1, by decide, by decide⟩⟩

/-! ## DecodeBase58: the carry-propagation path against the big-number path -/

theorem strchrAux_lt (s : List Char) (c : Char) (d : Nat) (h : strchrAux s c = some d) :
    d < s.length := by
  induction s generalizing d with
  | nil => simp [strchrAux] at h
  | cons x xs ih =>
    simp only [strchrAux] at h
    split at h
    · simp only [Option.some.injEq] at h
      rw [← h]
      simp
    · cases hs : strchrAux xs c with
      | none => rw [hs] at h; simp at h
      | some e =>
        rw [hs] at h
        simp only [Option.map_some', Option.some.injEq] at h
        rw [← h, List.length_cons]
        exact Nat.succ_lt_succ (ih e hs)

theorem symbolValue_lt (c : Char) (_ : c ∈ pszBase58) : symbolValue c < 58 := by
  unfold symbolValue
  cases hs : strchrAux pszBase58 c with
  | none => simp
  | some d => exact strchrAux_lt pszBase58 c d hs

theorem base256Value_replicate_zero (m : Nat) : base256Value (List.replicate m 0) = 0 := by
  unfold base256Value
  rw [List.map_replicate]
  exact beValue_replicate_zero 256 m

theorem carryPass_spec (ds : List Byte) (c : Nat) :
    (DecodeBase58.carryPass ds c).1.length = ds.length ∧
    base256Value (DecodeBase58.carryPass ds c).1 +
        (DecodeBase58.carryPass ds c).2 * 256 ^ ds.length =
      58 * base256Value ds + c := by
  induction ds with
  | nil => simp [DecodeBase58.carryPass, base256Value, beValue]
  | cons d ds ih =>
    obtain ⟨hl, hv⟩ := ih
    simp only [DecodeBase58.carryPass]
    refine ⟨by simp [hl], ?_⟩
    rw [base256Value_cons, base256Value_cons, hl, List.length_cons, pow_succ]
    have hval : (Fin.ofNat (((DecodeBase58.carryPass ds c).2 + 58 * d.val) % 256) : Byte).val =
        ((DecodeBase58.carryPass ds c).2 + 58 * d.val) % 256 := Nat.mod_mod _ _
    rw [hval]
    generalize (DecodeBase58.carryPass ds c).2 = c1 at hv ⊢
    generalize base256Value (DecodeBase58.carryPass ds c).1 = v1 at hv ⊢
    generalize 256 ^ ds.length = P at hv ⊢
    have key : (c1 + 58 * d.val) % 256 * P + (c1 + 58 * d.val) / 256 * (P * 256) =
        (c1 + 58 * d.val) * P := by
      conv_rhs => rw [← Nat.div_add_mod (c1 + 58 * d.val) 256]
      ring
    nlinarith [key, hv]

theorem carryPass_fit (b256 : List Byte) (ch n : Nat) (hch : ch < 58)
    (hfit : (base256Value b256 + 1) * 58 ^ (n + 1) ≤ 256 ^ b256.length) :
    (DecodeBase58.carryPass b256 ch).2 = 0 ∧
    (DecodeBase58.carryPass b256 ch).1.length = b256.length ∧
    base256Value (DecodeBase58.carryPass b256 ch).1 = 58 * base256Value b256 + ch ∧
    (base256Value (DecodeBase58.carryPass b256 ch).1 + 1) * 58 ^ n ≤
      256 ^ (DecodeBase58.carryPass b256 ch).1.length := by
  obtain ⟨hl, hv⟩ := carryPass_spec b256 ch
  have hQ : 1 ≤ 58 ^ n := Nat.one_le_pow _ _ (by norm_num)
  rw [pow_succ] at hfit
  generalize hV : base256Value b256 = V at hv hfit
  generalize hQe : 58 ^ n = Q at hQ hfit
  generalize hPe : 256 ^ b256.length = P at hv hfit
  have hfit2 : (58 * V + ch + 1) * Q ≤ P := by
    have : (58 * V + ch + 1) * Q ≤ (V + 1) * (Q * 58) := by
      have e : (V + 1) * (Q * 58) = (58 * V + 58) * Q := by ring
      rw [e]
      exact Nat.mul_le_mul_right _ (by omega)
    exact le_trans this hfit
  have hlt : 58 * V + ch < P := by
    have : (58 * V + ch + 1) * 1 ≤ (58 * V + ch + 1) * Q := Nat.mul_le_mul_left _ hQ
    omega
  have hc0 : (DecodeBase58.carryPass b256 ch).2 = 0 := by
    by_contra hne
    have h1 : 1 ≤ (DecodeBase58.carryPass b256 ch).2 := Nat.one_le_iff_ne_zero.2 hne
    have h2 : 1 * P ≤ (DecodeBase58.carryPass b256 ch).2 * P := Nat.mul_le_mul_right _ h1
    omega
  rw [hc0, Nat.zero_mul, Nat.add_zero] at hv
  refine ⟨hc0, hl, hv, ?_⟩
  rw [hv, hl, hPe]
  exact hfit2

theorem carryLoop_append (z : Nat) (a w : List Char) (ha : ∀ c ∈ a, c ∈ pszBase58)
    (hw : ∀ c ∈ w, isspace c = true) (b256 : List Byte)
    (hfit : (base256Value b256 + 1) * 58 ^ a.length ≤ 256 ^ b256.length) :
    ∃ out, DecodeBase58.carryLoop z (a ++ w) b256 = some (DecodeBase58.carryFinish z out) ∧
      base256Value out = base256Value b256 * 58 ^ a.length + beValue 58 (a.map symbolValue) := by
  induction a generalizing b256 with
  | nil =>
    refine ⟨b256, ?_, by simp [beValue_nil]⟩
    cases w with
    | nil => rfl
    | cons c w =>
      simp only [List.nil_append, DecodeBase58.carryLoop]
      rw [if_pos (hw c (List.mem_cons_self _ _)), if_pos (List.dropWhile_eq_nil_iff.2 hw)]
  | cons c a ih =>
    have hc := ha c (List.mem_cons_self _ _)
    have hns : ¬ isspace c = true := by
      rw [isspace_false_of_mem c hc]
      exact Bool.false_ne_true
    obtain ⟨h0, hl, hv, hf⟩ := carryPass_fit b256 (symbolValue c) a.length
      (symbolValue_lt c hc) hfit
    obtain ⟨out, ho, hov⟩ := ih (fun x hx => ha x (List.mem_cons_of_mem _ hx)) _ hf
    refine ⟨out, ?_, ?_⟩
    · simp only [List.cons_append, DecodeBase58.carryLoop]
      rw [if_neg hns, strchr_of_mem hc]
      simp only
      rw [if_pos h0]
      exact ho
    · rw [hov, hv, List.map_cons, beValue_cons, List.length_map, List.length_cons, pow_succ]
      ring

theorem carryLoop_reject (z : Nat) (p : List Char) (hn : NUL ∉ p) (ht : ¬ Base58Tail p)
    (b256 : List Byte)
    (hfit : (base256Value b256 + 1) * 58 ^ p.length ≤ 256 ^ b256.length) :
    DecodeBase58.carryLoop z p b256 = some (false, []) := by
  induction p generalizing b256 with
  | nil => exact absurd ⟨[], [], rfl, by simp, by simp⟩ ht
  | cons c rest ih =>
    have hc : c ≠ NUL := fun e => hn (e ▸ List.mem_cons_self _ _)
    have hrest : NUL ∉ rest := fun hm => hn (List.mem_cons_of_mem _ hm)
    simp only [DecodeBase58.carryLoop]
    by_cases hs : isspace c = true
    · rw [if_pos hs]
      by_cases hd : (c :: rest).dropWhile isspace = []
      · exact absurd ⟨[], c :: rest, rfl, by simp, List.dropWhile_eq_nil_iff.1 hd⟩ ht
      · rw [if_neg hd]
    · rw [if_neg hs]
      cases hs2 : strchr pszBase58 c with
      | none => rfl
      | some ch =>
        have hmem : c ∈ pszBase58 := mem_of_strchr_some hc hs2
        have hch : ch = symbolValue c := by
          rw [strchr_of_mem hmem] at hs2
          exact (Option.some.inj hs2).symm
        obtain ⟨h0, _, _, hf⟩ := carryPass_fit b256 ch rest.length
          (hch ▸ symbolValue_lt c hmem) hfit
        simp only
        rw [if_pos h0]
        apply ih hrest _ _ hf
        rintro ⟨a, w, e, ha, hw⟩
        apply ht
        refine ⟨c :: a, w, by rw [e]; rfl, ?_, hw⟩
        intro x hx
        rcases List.mem_cons.1 hx with rfl | hx
        · exact hmem
        · exact ha x hx

theorem decode_buffer_fits (n : Nat) : 58 ^ n ≤ 256 ^ (n * 733 / 1000 + 1) := by
  have h0 : (58 : ℕ) ^ 86 ≤ 256 ^ 63 := by norm_num
  have hm : 63 * n ≤ 86 * (n * 733 / 1000 + 1) := by omega
  have h1 : (58 ^ n) ^ 86 ≤ (256 ^ (n * 733 / 1000 + 1)) ^ 86 := by
    calc (58 ^ n) ^ 86 = (58 ^ 86) ^ n := by rw [← pow_mul, ← pow_mul, Nat.mul_comm]
      _ ≤ (256 ^ 63) ^ n := Nat.pow_le_pow_left h0 n
      _ = 256 ^ (63 * n) := by rw [← pow_mul]
      _ ≤ 256 ^ (86 * (n * 733 / 1000 + 1)) := Nat.pow_le_pow_right (by norm_num) hm
      _ = (256 ^ (n * 733 / 1000 + 1)) ^ 86 := by rw [← pow_mul, Nat.mul_comm]
  exact (Nat.pow_le_pow_iff_left (by norm_num)).1 h1

theorem dropWhile_zero_minimal (out : List Byte) :
    out.dropWhile (· == 0) = minimalBytes (base256Value out) := by
  induction out with
  | nil => rfl
  | cons d L ih =>
    rw [List.dropWhile_cons]
    by_cases hd : d = 0
    · subst hd
      have h0 : ((0 : Byte) == 0) = true := rfl
      rw [if_pos h0, ih, base256Value_cons]
      simp
    · have h0 : ¬ (d == 0) = true := by simpa using hd
      rw [if_neg h0]
      refine (minimalBytes_base256Value (d :: L) ?_).symm
      intro h
      simp only [List.head?_cons, Option.some.injEq] at h
      exact hd h

/-- What the carry-propagation path returns, in terms of the big-number path: the same
flag, and on success the bytes of the big-number path behind `zeroes` zero bytes. No
`assert` fails. -/
theorem carryPath_eq (psz : List Char) :
    DecodeBase58.carryPath psz = some ((DecodeBase58 psz).1,
      if (DecodeBase58 psz).1 = true then
        List.replicate (DecodeBase58.zeroes psz) 0 ++ (DecodeBase58 psz).2
      else []) := by
  unfold DecodeBase58.carryPath
  rw [DecodeBase58_eq]
  simp only
  by_cases ht : Base58Tail (((cstr psz).dropWhile isspace).dropWhile (· == '1'))
  · obtain ⟨a, w, e, ha, hw⟩ := ht
    rw [e, loop_append a w ha hw]
    obtain ⟨out, ho, hov⟩ := carryLoop_append (DecodeBase58.zeroes psz) a w ha hw
      (List.replicate ((a ++ w).length * 733 / 1000 + 1) 0)
      (by rw [base256Value_replicate_zero, List.length_replicate, Nat.zero_add, Nat.one_mul]
          exact le_trans (Nat.pow_le_pow_right (by norm_num)
            (by rw [List.length_append]; omega)) (decode_buffer_fits _))
    rw [ho]
    simp only [if_true, DecodeBase58.carryFinish]
    rw [dropWhile_zero_minimal, hov, base256Value_replicate_zero, trimSign_getvch,
      Nat.zero_mul, Nat.zero_add, ← base58Value_eq]
    rfl
  · have hn : NUL ∉ ((cstr psz).dropWhile isspace).dropWhile (· == '1') := fun hm =>
      NUL_not_mem_cstr psz
        ((List.dropWhile_sublist _).subset ((List.dropWhile_sublist _).subset hm))
    have hl : DecodeBase58.loop (((cstr psz).dropWhile isspace).dropWhile (· == '1')) 0
        = none := by
      cases hl : DecodeBase58.loop (((cstr psz).dropWhile isspace).dropWhile (· == '1')) 0 with
      | none => rfl
      | some bn => exact absurd (tail_of_loop_some _ hn 0 bn hl) ht
    rw [hl]
    simp only [Bool.false_eq_true, if_false]
    exact carryLoop_reject _ _ hn ht _
      (by rw [base256Value_replicate_zero, List.length_replicate, Nat.zero_add, Nat.one_mul]
          exact decode_buffer_fits _)

/-- C16: the two decode paths return the same success flag (and the empty vector on
failure), but not the same bytes: on success the carry-propagation path returns `zeroes`
zero bytes followed by the bytes of the big-number path, so the outputs differ on every
accepted string that has a leading `'1'`. -/
theorem DecodeBase58_paths (psz : List Char) :
    ∃ out, DecodeBase58.carryPath psz = some ((DecodeBase58 psz).1, out) ∧
      ((DecodeBase58 psz).1 = false → out = [] ∧ (DecodeBase58 psz).2 = []) ∧
      ((DecodeBase58 psz).1 = true →
        out = List.replicate (DecodeBase58.zeroes psz) 0 ++ (DecodeBase58 psz).2) ∧
      ((DecodeBase58 psz).1 = true → 0 < DecodeBase58.zeroes psz →
        out ≠ (DecodeBase58 psz).2) := by
  refine ⟨_, carryPath_eq psz, ?_, ?_, ?_⟩
  · intro h
    rw [if_neg (by rw [h]; exact Bool.false_ne_true), DecodeBase58_fst_false psz h]
    exact ⟨rfl, rfl⟩
  · intro h
    rw [if_pos h]
  · intro h hz
    rw [if_pos h]
    intro e
    have := congrArg List.length e
    rw [List.length_append, List.length_replicate] at this
    omega

theorem DecodeBase58_paths_witness :
    ∃ out, DecodeBase58.carryPath "1Ldp".toList = some ((DecodeBase58 "1Ldp".toList).1, out) ∧
      out = List.replicate (DecodeBase58.zeroes "1Ldp".toList) 0 ++ (DecodeBase58 "1Ldp".toList).2 ∧
      out ≠ (DecodeBase58 "1Ldp".toList).2 :=
  (DecodeBase58_paths "1Ldp".toList).imp fun _ h =>
    ⟨h.1, h.2.2.1 (by decide), h.2.2.2 (by decide) (by decide)⟩

end Base58
